import Mathlib

/-!
Shallow embedding of the generic (portable) SIMD kernels of
`velox/common/base/SimdUtil-inl.h`, together with proofs of the behavioural
properties stated in the specification.

Vector batches are modelled as lists of lane values, boolean lane masks as
lists of `Bool`, scalar bitmasks and 64-bit bitmap words as `Nat` (with
explicit `< 2 ^ 64` bounds where word width matters), and caller-owned
output buffers as functions `Nat → Nat` indexed by element position.
Undefined behaviour (out-of-bounds loads) is modelled with `Option`.
-/

namespace Velox

/-- Modelled from the spec: `bits::lowMask(n)` from the repository's bit
utilities (declared outside `src/`): an integer with the `n` lowest bits set. -/
def lowMask (n : Nat) : Nat := 2 ^ n - 1

/-- Modelled from the spec: `bits::highMask(n)`: a 64-bit word with the `n`
highest bits set. -/
def highMask (n : Nat) : Nat := lowMask n <<< (64 - n)

/-- Modelled from the spec: `bits::roundUp(x, 64)`: `x` rounded up to a
multiple of 64. -/
def roundUp64 (x : Nat) : Nat := (x + 63) / 64 * 64

/-- Number of trailing zero bits, as computed by `__builtin_ctzll` (the
argument is nonzero whenever the kernels call it; we extend with `ctz 0 = 0`). -/
def ctz (w : Nat) : Nat :=
  if w = 0 ∨ w % 2 = 1 then 0 else ctz (w / 2) + 1
termination_by w
decreasing_by omega

/-- Number of set bits, as computed by `__builtin_popcount`. -/
def popCount (w : Nat) : Nat :=
  if w = 0 then 0 else w % 2 + popCount (w / 2)
termination_by w
decreasing_by omega

/-- Specification-side list of the set-bit positions of `w` below `n`,
in increasing order. -/
def setBitsBelow (n w : Nat) : List Nat := (List.range n).filter (w.testBit ·)

/-- Modelled from the spec: the byte → set-bit-offsets table `byteSetBits`
(defined in the repository outside `src/`): entry `b` lists the set-bit
positions of byte `b` in increasing order; the remaining slots up to 8 are
padding whose value the kernels never consume (only the first
`popcount(b)` entries are read before the write pointer is advanced). -/
def byteSetBits (b : Nat) : List Nat :=
  setBitsBelow 8 b ++ List.replicate (8 - (setBitsBelow 8 b).length) 0

/-- `detail::BitMask<T,A>::kAllSet` (SimdUtil-inl.h:58): `bits::lowMask(N)`. -/
def kAllSet (N : Nat) : Nat := lowMask N

/-- `detail::BitMask<T,A>::toBitMask` (SimdUtil-inl.h:60-79): for each true
lane `i`, or `1 << i` into the result. -/
def BitMask_toBitMask (mask : List Bool) : Nat :=
  (List.range mask.length).foldl
    (fun ans i => if mask.getD i false then ans ||| 1 <<< i else ans) 0

/-- `detail::fromBitMaskImpl` (SimdUtil-inl.h:39-54): the memoized table entry
for mask `m`; lane `bit` is true iff `m & (1 << bit)` is nonzero. -/
def fromBitMaskImpl (N m : Nat) : List Bool :=
  (List.range N).map (fun bit => m.testBit bit)

/-- `detail::BitMask<T,A>::fromBitMask` (SimdUtil-inl.h:81-84): all-true fast
path when `m == kAllSet`, table lookup otherwise. -/
def BitMask_fromBitMask (N m : Nat) : List Bool :=
  if m = kAllSet N then List.replicate N true else fromBitMaskImpl N m

/-- Memo table of `leadingMask` (SimdUtil-inl.h:168-176): entry `i` has
exactly its first `i` lanes true (`memo[i]` is stored before `tmp[i]` is set). -/
def leadingMaskMemo (N i : Nat) : List Bool :=
  (List.range N).map (fun j => decide (j < i))

/-- `leadingMask` (SimdUtil-inl.h:165-178): all-true fast path for `n ≥ N`,
memo table lookup otherwise. -/
def leadingMask (N n : Nat) : List Bool :=
  if n ≥ N then List.replicate N true else leadingMaskMemo N n

/-- `detail::genericPermute(data, const int32_t* idx)` (SimdUtil-inl.h:500-510):
`dst[i] = idx[i] < 0 ? 0 : src[idx[i]]` for each lane `i < N`.  A nonnegative
out-of-range index reads past `src`, which is undefined behaviour, modelled as
`none`.  The batch-index overload (512-520) and the `Permute<T,A,4>` full- and
half-batch entry points (536-550) all store the index batch and take this
same code path. -/
def genericPermute (data idx : List Int) : Option (List Int) :=
  (List.range data.length).mapM (fun i =>
    if idx.getD i 0 < 0 then some 0 else data[(idx.getD i 0).toNat]?)

/-- `detail::genericPermute(Batch64<T>, Batch64<int32_t>)` (SimdUtil-inl.h:522-530):
`ans.data[i] = data.data[idx.data[i]]` for `i < idx.size`, with no check of any
kind on the index, so a negative (or out-of-range) index is an out-of-bounds
array access, modelled as `none`.  Only the first `idx.size` result lanes are
assigned; the model returns exactly those lanes. -/
def genericPermuteBatch64 (data idx : List Int) : Option (List Int) :=
  idx.mapM (fun ix => if ix < 0 then none else data[ix.toNat]?)

/-- `detail::Filter<T, A, 2>::apply` (SimdUtil-inl.h:648-662): the result batch
is value-initialized to zero, then the lanes of `data` whose mask bit is set
are written through an advancing write pointer. -/
def Filter2_apply (data : List Int) (mask : Nat) : List Int :=
  ((List.range data.length).foldl
    (fun st i =>
      if mask.testBit i then (st.1.set st.2 (data.getD i 0), st.2 + 1) else st)
    (List.replicate data.length 0, 0)).1

/-- `detail::Filter<T, A, 4>::apply` (both full- and half-batch overloads,
SimdUtil-inl.h:664-676) and `detail::Filter<T, A, 8>::apply` (678-684): load
the permutation-index vector `byteSetBits[mask]` and permute `data` by it via
`genericPermute`. -/
def FilterTable_apply (data : List Int) (mask : Nat) : Option (List Int) :=
  genericPermute data ((byteSetBits mask).map (Nat.cast : Nat → Int))

/-- `detail::genericMaskGather` (SimdUtil-inl.h:332-356): lane `i` of the
result is the `T`-element loaded from `base` at byte offset
`vindex[i] * kScale` when `mask` lane `i` is true, else `src` lane `i`.
The typed load from caller-owned memory is modelled as a partial map from
byte offsets to element values (`none` = out of bounds, undefined behaviour). -/
def genericMaskGather (kScale : Int) (src : List Int) (mask : List Bool)
    (base : Int → Option Int) (vindex : List Int) : Option (List Int) :=
  (List.range src.length).mapM (fun i =>
    if mask.getD i false then base (vindex.getD i 0 * kScale)
    else some (src.getD i 0))

/-- Concrete 4-byte-element base buffer `[100,110,120,130,140]` from the
spec's gather example, as a partial map from byte offsets to elements. -/
def gatherExampleBase : Int → Option Int := fun off =>
  if off % 4 = 0 ∧ 0 ≤ off ∧ off < 20 then some (100 + 10 * (off / 4)) else none

/-- Machine state threaded through `velox::simd::memcpy`
(`void*& to`, `const void*& from`, `int32_t& bytes`, plus the destination
byte memory the stores land in). -/
structure CopyState where
  dst : Nat → Nat
  toOff : Nat
  fromOff : Nat
  bytes : Nat

/-- `detail::CopyWord<T,A>::apply` (SimdUtil-inl.h:182-196): an unaligned
load/store moving `sz = sizeof(T)` bytes from source offset `fromOff` to
destination offset `toOff` (`sz = batchByteSize(arch)` for the
`xsimd::batch<int8_t>` specialization). -/
def copyWordBytes (sz : Nat) (src : Nat → Nat) (s : CopyState) : Nat → Nat :=
  fun j => if s.toOff ≤ j ∧ j < s.toOff + sz then src (s.fromOff + (j - s.toOff)) else s.dst j

/-- `detail::copyNextWord<T,A>` (SimdUtil-inl.h:198-213): if at least
`sz = sizeof(T)` bytes remain, copy one `T` and advance; the `Bool` is
`false` exactly when `bytes` reached 0 (the pointers are then not advanced,
matching the early `return false`). -/
def copyNextWord (sz : Nat) (src : Nat → Nat) (s : CopyState) : CopyState × Bool :=
  if sz ≤ s.bytes then
    if s.bytes - sz = 0 then (⟨copyWordBytes sz src s, s.toOff, s.fromOff, 0⟩, false)
    else (⟨copyWordBytes sz src s, s.toOff + sz, s.fromOff + sz, s.bytes - sz⟩, true)
  else (s, true)

/-- One of the two leading `while` loops of `memcpy` (SimdUtil-inl.h:218-227):
keep calling `copyNextWord` while at least `sz` bytes remain, returning early
(`false`) when the byte count hits zero.  (The C++ loop would not terminate
for `sz = 0`; the kernels only instantiate `sz ≥ 8`.) -/
def memcpyLoop (sz : Nat) (src : Nat → Nat) (s : CopyState) : CopyState × Bool :=
  if h : 0 < sz ∧ sz ≤ s.bytes then
    if (copyNextWord sz src s).2 then memcpyLoop sz src (copyNextWord sz src s).1
    else ((copyNextWord sz src s).1, false)
  else (s, true)
termination_by s.bytes
decreasing_by
  unfold copyNextWord
  rw [if_pos h.2]
  by_cases hz : s.bytes - sz = 0
  · rw [if_pos hz]
    simp
    omega
  · rw [if_neg hz]
    simp
    omega

/-- `velox::simd::memcpy` (SimdUtil-inl.h:216-235): cascade from whole
vector batches down through 8-, 4-, 2- and finally 1-byte copies.
`batchBytes` is `batchByteSize(arch)`.  Returns the final destination
memory. -/
def memcpy (batchBytes : Nat) (src dst0 : Nat → Nat) (toOff fromOff bytes : Nat) : Nat → Nat :=
  let r1 := memcpyLoop batchBytes src ⟨dst0, toOff, fromOff, bytes⟩
  if r1.2 = false then r1.1.dst else
  let r2 := memcpyLoop 8 src r1.1
  if r2.2 = false then r2.1.dst else
  let r3 := copyNextWord 4 src r2.1
  if r3.2 = false then r3.1.dst else
  let r4 := copyNextWord 2 src r3.1
  if r4.2 = false then r4.1.dst else
  (copyNextWord 1 src r4.1).1.dst

/-- Machine state threaded through `velox::simd::memset`. -/
structure SetState where
  dst : Nat → Nat
  toOff : Nat
  bytes : Nat

/-- `detail::SetWord<T,A>::apply` (SimdUtil-inl.h:239-251): store the low
`sz = sizeof(T)` bytes of the fill pattern at offset `toOff`.  The pattern is
the broadcast vector `v` of the fill byte `d` (SimdUtil-inl.h:271); `data64`
(277) is its first 8 bytes and the narrower stores truncate `data64`
(283-289), so every store writes `sz` copies of the byte `d`. -/
def setWordBytes (sz d : Nat) (s : SetState) : Nat → Nat :=
  fun j => if s.toOff ≤ j ∧ j < s.toOff + sz then d else s.dst j

/-- `detail::setNextWord<T>` (SimdUtil-inl.h:253-265). -/
def setNextWord (sz d : Nat) (s : SetState) : SetState × Bool :=
  if sz ≤ s.bytes then
    if s.bytes - sz = 0 then (⟨setWordBytes sz d s, s.toOff, 0⟩, false)
    else (⟨setWordBytes sz d s, s.toOff + sz, s.bytes - sz⟩, true)
  else (s, true)

/-- One of the two leading `while` loops of `memset` (SimdUtil-inl.h:272-281). -/
def memsetLoop (sz d : Nat) (s : SetState) : SetState × Bool :=
  if h : 0 < sz ∧ sz ≤ s.bytes then
    if (setNextWord sz d s).2 then memsetLoop sz d (setNextWord sz d s).1
    else ((setNextWord sz d s).1, false)
  else (s, true)
termination_by s.bytes
decreasing_by
  unfold setNextWord
  rw [if_pos h.2]
  by_cases hz : s.bytes - sz = 0
  · rw [if_pos hz]
    simp
    omega
  · rw [if_neg hz]
    simp
    omega

/-- `velox::simd::memset` (SimdUtil-inl.h:269-290): cascade from whole
vector batches down through 8-, 4-, 2- and finally 1-byte stores of the
fill byte `d`. -/
def memset (batchBytes : Nat) (dst0 : Nat → Nat) (toOff d bytes : Nat) : Nat → Nat :=
  let r1 := memsetLoop batchBytes d ⟨dst0, toOff, bytes⟩
  if r1.2 = false then r1.1.dst else
  let r2 := memsetLoop 8 d r1.1
  if r2.2 = false then r2.1.dst else
  let r3 := setNextWord 4 d r2.1
  if r3.2 = false then r3.1.dst else
  let r4 := setNextWord 2 d r3.1
  if r4.2 = false then r4.1.dst else
  (setNextWord 1 d r4.1).1.dst

/-- Reference byte-by-byte copy: the first `n` destination bytes starting at
`toOff` take the source bytes starting at `fromOff`; every other byte keeps
its value. -/
def naiveCopy (dst src : Nat → Nat) (toOff fromOff n : Nat) : Nat → Nat :=
  fun j => if toOff ≤ j ∧ j < toOff + n then src (fromOff + (j - toOff)) else dst j

/-- Reference byte-by-byte fill with byte `d`. -/
def naiveFill (dst : Nat → Nat) (toOff n d : Nat) : Nat → Nat :=
  fun j => if toOff ≤ j ∧ j < toOff + n then d else dst j

/-- Modelled from the external `boost::crc` bit-reflection helper: the low
`n` bits of `x` in reverse order. -/
def reflectBits : Nat → Nat → Nat
  | 0, _ => 0
  | n + 1, x => (x % 2) <<< n + reflectBits n (x / 2)

/-- 32-bit reflection.  The `boost::crc_32_type` optimal engine keeps its
interim remainder in reflected form, so its constructor reflects the
initial-remainder argument into internal form (and `get_interim_remainder`
reflects it back). -/
def reflect32 (x : Nat) : Nat := reflectBits 32 x

/-- One step of the table generator for the reflected CRC-32 polynomial
`0xEDB88320` (the bit reflection of the `boost::crc_32_type` polynomial
`0x04C11DB7`). -/
def crcStep (r : Nat) : Nat := if r % 2 = 1 then (r >>> 1) ^^^ 0xEDB88320 else r >>> 1

/-- Modelled from the external `boost::crc` table-driven engine: the table
entry for byte `b` (eight conditional polynomial-division steps). -/
def crcTableEntry (b : Nat) : Nat := crcStep^[8] b

/-- Reflected table-driven CRC-32 update of the internal remainder by one
byte. -/
def crcUpdateByte (r b : Nat) : Nat := (r >>> 8) ^^^ crcTableEntry ((r ^^^ b) &&& 255)

/-- `process_bytes` of the modelled `boost::crc_32_type`, acting on the
internal (reflected) remainder. -/
def crcProcessBytes (r : Nat) (bs : List Nat) : Nat := bs.foldl crcUpdateByte r

/-- Modelled from the external `boost::crc_32_type` (polynomial `0x04C11DB7`,
initial remainder `0xFFFFFFFF`, final xor `0xFFFFFFFF`, reflected input and
output): construct with initial remainder `initRem` (reflected into internal
form by the constructor), process the bytes `bs`, and return `checksum()` =
internal remainder xor `0xFFFFFFFF`.  `boostCrc32_check_value` below checks
the standard CRC-32 answer for "123456789" against this model. -/
def boostCrc32 (initRem : Nat) (bs : List Nat) : Nat :=
  crcProcessBytes (reflect32 initRem) bs ^^^ 0xFFFFFFFF

/-- Little-endian byte decomposition of a `uint64_t` value, as
`process_bytes(&value, sizeof(value))` reads it on the engine's targets. -/
def bytes8LE (v : Nat) : List Nat :=
  [v &&& 255, (v >>> 8) &&& 255, (v >>> 16) &&& 255, (v >>> 24) &&& 255,
   (v >>> 32) &&& 255, (v >>> 40) &&& 255, (v >>> 48) &&& 255, (v >>> 56) &&& 255]

/-- `detail::Crc32<uint64_t, A>::apply` (SimdUtil-inl.h:686-694):
`boost::crc_32_type result(checksum); result.process_bytes(&value,
sizeof(value)); return result();`. -/
def Crc32_apply (checksum value : Nat) : Nat := boostCrc32 checksum (bytes8LE value)

/-- Conversion of a finalized checksum back into the constructor's
initial-remainder argument (the interim remainder): undo the final xor,
then pre-invert the constructor's reflection. -/
def crcResume (c : Nat) : Nat := reflect32 (c ^^^ 0xFFFFFFFF)

/-- Output state of `indicesOfSetBits`: the caller's `int32_t* result`
buffer contents, the write position `result - originalResult`, the
high-water mark of buffer slots ever stored (exclusive), and the current
`row`. -/
structure ScanState where
  buf : Nat → Nat
  pos : Nat
  hi : Nat
  row : Nat

/-- Store `vals` at the write pointer and advance it by `adv`
(`adv = vals.length` for the scalar stores; the vectorized byte-table
stores write a full batch but advance only by the byte's popcount). -/
def scanStore (s : ScanState) (vals : List Nat) (adv : Nat) : ScanState :=
  ⟨fun j => if s.pos ≤ j ∧ j < s.pos + vals.length then vals.getD (j - s.pos) 0 else s.buf j,
   s.pos + adv, max s.hi (s.pos + vals.length), s.row⟩

/-- `row += n`. -/
def addRow (s : ScanState) (n : Nat) : ScanState := ⟨s.buf, s.pos, s.hi, s.row + n⟩

/-- The sparse strategy for one nonzero word (SimdUtil-inl.h:126-130):
emit `ctz(word) + row`, clear the lowest set bit, repeat until zero
(`row` is only advanced after the loop, by the caller). -/
def sparseLoop (w : Nat) (s : ScanState) : ScanState :=
  if w = 0 then s
  else sparseLoop (w &&& (w - 1)) (scanStore s [ctz w + s.row] 1)
termination_by w
decreasing_by
  have h1 : w &&& (w - 1) ≤ w - 1 := Nat.and_le_right
  omega

/-- One byte of the dense strategy on an 8-lane `int32_t` architecture
(SimdUtil-inl.h:136-140): store the full 8-entry batch
`byteSetBits[byte] + row` and advance by `popcount(byte)`. -/
def denseByteWide (byte : Nat) (s : ScanState) : ScanState :=
  if byte = 0 then s
  else scanStore s ((byteSetBits byte).map (· + s.row)) (popCount byte)

/-- One byte of the dense strategy on a 4-lane `int32_t` architecture
(SimdUtil-inl.h:141-156): store a 4-entry batch for the low nibble, then one
for the high nibble from `byteSetBits[byte]` at offset `pop`, each advancing
by its nibble's popcount. -/
def denseByteNarrow (byte : Nat) (s : ScanState) : ScanState :=
  if byte = 0 then s
  else
    let lo := byte &&& 15
    let hi4 := byte >>> 4
    let s1 := if lo ≠ 0 then
        scanStore s (((byteSetBits byte).take 4).map (· + s.row)) (popCount lo)
      else s
    let pop := if lo ≠ 0 then popCount lo else 0
    if hi4 ≠ 0 then
      scanStore s1 ((((byteSetBits byte).drop pop).take 4).map (· + s1.row)) (popCount hi4)
    else s1

/-- The dense (byte-table) strategy for one word (SimdUtil-inl.h:132-159):
process the 8 bytes from low to high, adding 8 to `row` after each. -/
def denseLoop (wide : Bool) : Nat → Nat → ScanState → ScanState
  | 0, _, s => s
  | n + 1, word, s =>
      denseLoop wide n (word >>> 8)
        (addRow ((if wide then denseByteWide else denseByteNarrow) (word &&& 255) s) 8)

/-- Body of the word loop of `indicesOfSetBits` (SimdUtil-inl.h:103-161):
mask the first and last partial words (skipping words that become zero,
advancing `row` on `continue` but not on the final-word `break`), then
process a surviving word with the sparse or dense strategy according to the
density heuristic `result - originalResult < (row >> 2)`. -/
def scanStep (wide : Bool) (bs : List Nat) (b e firstWord endWord : Nat)
    (s : ScanState) (wordIndex : Nat) : ScanState :=
  let word := bs.getD wordIndex 0
  if word = 0 then addRow s 64
  else
    let word1 := if wordIndex = firstWord ∧ b ≠ firstWord * 64 then
        word &&& highMask (64 - (b - firstWord * 64))
      else word
    if word1 = 0 then addRow s 64
    else
      let word2 := if wordIndex = endWord - 1 ∧ e - (endWord - 1) * 64 < 64 then
          word1 &&& lowMask (e - (endWord - 1) * 64)
        else word1
      if word2 = 0 then s
      else if s.pos < s.row >>> 2 then addRow (sparseLoop word2 s) 64
      else denseLoop wide 8 word2 s

/-- `velox::simd::indicesOfSetBits` (SimdUtil-inl.h:89-163), parameterized by
the architecture's `int32_t` lane count (`wide = true` for 8 lanes, `false`
for 4).  `bs` is the bitmap as 64-bit words, `buf0` the caller's output
buffer.  The returned state's `pos` is the function's return value
(`result - originalResult`); `row` is initialized to `begin & ~63`. -/
def indicesOfSetBits (wide : Bool) (bs : List Nat) (b e : Nat) (buf0 : Nat → Nat) : ScanState :=
  if e ≤ b then ⟨buf0, 0, 0, 0⟩
  else
    (List.range' (b / 64) (roundUp64 e / 64 - b / 64)).foldl
      (scanStep wide bs b e (b / 64) (roundUp64 e / 64)) ⟨buf0, 0, 0, b / 64 * 64⟩

/-- Bit `k` of the bitmap (word `k / 64`, position `k % 64`). -/
def bitmapBit (bs : List Nat) (k : Nat) : Bool := (bs.getD (k / 64) 0).testBit (k % 64)

/-- The absolute positions of the set bits of the bitmap in `[b, e)`, in
increasing order. -/
def setBitIndices (bs : List Nat) (b e : Nat) : List Nat :=
  (List.range' b (e - b)).filter (bitmapBit bs)

/-- The word at `wi` after the first-word and last-word boundary masking of
the scan loop. -/
def maskedWord (bs : List Nat) (b e firstWord endWord wi : Nat) : Nat :=
  let word := bs.getD wi 0
  let word1 := if wi = firstWord ∧ b ≠ firstWord * 64 then
      word &&& highMask (64 - (b - firstWord * 64))
    else word
  if wi = endWord - 1 ∧ e - (endWord - 1) * 64 < 64 then
    word1 &&& lowMask (e - (endWord - 1) * 64)
  else word1

/-- The output entries contributed by word `wi`. -/
def wordContrib (bs : List Nat) (b e firstWord endWord wi : Nat) : List Nat :=
  (setBitsBelow 64 (maskedWord bs b e firstWord endWord wi)).map (· + 64 * wi)

/-- Output-correctness invariant of the scan: `pos` entries have been
produced and the buffer holds `P` below `pos`. -/
def scanInv (s : ScanState) (P : List Nat) : Prop :=
  s.pos = P.length ∧ ∀ j, j < P.length → s.buf j = P.getD j 0

/-- Slack invariant of the scan (claim C9): no buffer slot at index
`≥ pos + slack` has ever been stored. -/
def hiInv (slack : Nat) (s : ScanState) : Prop := s.hi ≤ s.pos + slack

end Velox

namespace Velox

theorem count_true_map_decide_lt (N i : Nat) :
    (((List.range N).map (fun j => decide (j < i))).count true) = min i N := by
  induction N with
  | zero => simp
  | succ n ih =>
    rw [List.range_succ, List.map_append, List.count_append, ih]
    simp only [List.map_cons, List.map_nil]
    by_cases h : n < i
    · have hd : decide (n < i) = true := by simp [h]
      rw [hd]
      have h1 : List.count true [true] = 1 := by decide
      rw [h1]
      omega
    · have hd : decide (n < i) = false := by simp [h]
      rw [hd]
      have h1 : List.count true [false] = 0 := by decide
      rw [h1]
      omega

theorem getD_map_range {α : Type} (f : Nat → α) (N j : Nat) (d : α) (h : j < N) :
    ((List.range N).map f).getD j d = f j := by
  simp [List.getD_eq_getElem?_getD, List.getElem?_map, List.getElem?_range h]

theorem getD_replicate {α : Type} (a d : α) (N j : Nat) (h : j < N) :
    (List.replicate N a).getD j d = a := by
  simp [List.getD_eq_getElem?_getD, List.getElem?_replicate, h]

/-- C8: `leadingMask(n)` returns a boolean lane mask with exactly `min n N`
true lanes, all at the lowest lane indices (lane `j` is true iff
`j < min n N`); for `n ≥ N` (stated as `n = N + k`) the all-true mask is
returned without a table lookup. -/
theorem leadingMask_spec : ∀ N n : Nat,
    (leadingMask N n).count true = min n N ∧
    (∀ j, j < N → (leadingMask N n).getD j false = decide (j < min n N)) ∧
    (∀ k, leadingMask N (N + k) = List.replicate N true) := by
  intro N n
  refine ⟨?_, ?_, ?_⟩
  · unfold leadingMask leadingMaskMemo
    split
    · rename_i h
      have h1 : (List.replicate N true).count true = N := by simp
      rw [h1]
      omega
    · rename_i h
      exact count_true_map_decide_lt N n
  · intro j hj
    unfold leadingMask leadingMaskMemo
    split
    · rename_i h
      rw [getD_replicate _ _ _ _ hj]
      have hm : j < min n N := by omega
      simp [hm]
    · rename_i h
      rw [getD_map_range _ _ _ _ hj]
      have hm : min n N = n := by omega
      rw [hm]
  · intro k
    unfold leadingMask
    rw [if_pos (by omega)]

/-- Closed witness for `leadingMask_spec` at `N = 4`, `n = 2`. -/
theorem leadingMask_spec_witness :
    (leadingMask 4 2).count true = 2 ∧ (leadingMask 4 2).getD 1 false = true := by
  refine ⟨(leadingMask_spec 4 2).1.trans (by decide), ?_⟩
  have h := (leadingMask_spec 4 2).2.1 1 (by decide)
  simpa using h

set_option maxRecDepth 4000 in
/-- C7: for every lane count `N ≤ 8` and every `m < 2 ^ N`,
`toBitMask (fromBitMask m) = m`; `fromBitMask` returns the all-true mask
directly when `m = kAllSet` and the precomputed table entry otherwise. -/
theorem bitMask_roundTrip : ∀ N, N ≤ 8 → ∀ m, m < 2 ^ N →
    BitMask_toBitMask (BitMask_fromBitMask N m) = m ∧
    BitMask_fromBitMask N (kAllSet N) = List.replicate N true ∧
    (m ≠ kAllSet N → BitMask_fromBitMask N m = fromBitMaskImpl N m) := by decide

/-- Closed witness for `bitMask_roundTrip` at `N = 8`, `m = 0b10110001`. -/
theorem bitMask_roundTrip_witness :
    BitMask_toBitMask (BitMask_fromBitMask 8 0xB1) = 0xB1 :=
  (bitMask_roundTrip 8 (by decide) 0xB1 (by decide)).1

theorem getD_append_left {α : Type} (l r : List α) (i : Nat) (d : α) (h : i < l.length) :
    (l ++ r).getD i d = l.getD i d := by
  simp [List.getD_eq_getElem?_getD, List.getElem?_append_left h]

theorem getD_append_right {α : Type} (l r : List α) (i : Nat) (d : α) (h : l.length ≤ i) :
    (l ++ r).getD i d = r.getD (i - l.length) d := by
  simp [List.getD_eq_getElem?_getD, List.getElem?_append_right h]

theorem getD_map_of_lt {α β : Type} (f : α → β) (l : List α) (i : Nat) (d : β) (da : α)
    (h : i < l.length) : (l.map f).getD i d = f (l.getD i da) := by
  simp [List.getD_eq_getElem?_getD, List.getElem?_map, List.getElem?_eq_getElem h,
    List.getD_eq_getElem l da h]

theorem mapM_eq_some_map {α β : Type} (f : α → Option β) (g : α → β) :
    ∀ l : List α, (∀ a ∈ l, f a = some (g a)) → l.mapM f = some (l.map g) := by
  intro l
  induction l with
  | nil => intro _; rfl
  | cons a l ih =>
    intro h
    rw [List.mapM_cons, h a (List.mem_cons_self a l),
      ih (fun x hx => h x (List.mem_cons_of_mem a hx))]
    rfl

theorem popCount_step (w : Nat) (h : w ≠ 0) : popCount w = w % 2 + popCount (w / 2) := by
  conv_lhs => rw [popCount]
  rw [if_neg h]

theorem popCount_eq_length (n : Nat) : ∀ w, w < 2 ^ n → popCount w = (setBitsBelow n w).length := by
  induction n with
  | zero =>
    intro w hw
    have hzero : w = 0 := by omega
    subst hzero
    simp [popCount, setBitsBelow]
  | succ n ih =>
    intro w hw
    by_cases h0 : w = 0
    · subst h0
      simp [popCount, setBitsBelow, Nat.zero_testBit]
    · rw [popCount_step w h0]
      unfold setBitsBelow
      rw [List.range_succ_eq_map, List.filter_cons, List.filter_map]
      have hcomp : (List.range n).filter ((fun i => w.testBit i) ∘ Nat.succ) =
          (List.range n).filter (fun i => (w / 2).testBit i) := by
        apply List.filter_congr
        intro x _
        simp [Function.comp, Nat.testBit_succ]
      rw [hcomp]
      have ih2 := ih (w / 2) (by rw [Nat.pow_succ] at hw; omega)
      unfold setBitsBelow at ih2
      rw [ih2, Nat.testBit_zero]
      by_cases hpar : w % 2 = 1
      · rw [if_pos (by simp [hpar])]
        simp only [List.length_cons, List.length_map]
        omega
      · rw [if_neg (by simp [hpar])]
        simp only [List.length_map]
        omega

theorem range_split (N M : Nat) (h : N ≤ M) :
    List.range M = List.range N ++ List.range' N (M - N) := by
  rw [List.range_eq_range', List.range_eq_range']
  have h1 := List.range'_append 0 N (M - N) 1
  simp only [Nat.one_mul, Nat.zero_add] at h1
  have h2 : M - N + N = M := by omega
  rw [h2] at h1
  exact h1.symm

theorem testBit_ge_false (w N x : Nat) (hw : w < 2 ^ N) (hx : N ≤ x) :
    w.testBit x = false :=
  Nat.testBit_lt_two_pow (Nat.lt_of_lt_of_le hw (Nat.pow_le_pow_right (by omega) hx))

theorem setBitsBelow_mono (N M w : Nat) (hNM : N ≤ M) (hw : w < 2 ^ N) :
    setBitsBelow M w = setBitsBelow N w := by
  unfold setBitsBelow
  rw [range_split N M hNM, List.filter_append]
  have hnil : (List.range' N (M - N)).filter (w.testBit ·) = [] := by
    rw [List.filter_eq_nil_iff]
    intro x hx
    rcases List.mem_range'.mp hx with ⟨i, hi, rfl⟩
    simp only [Bool.not_eq_true]
    exact testBit_ge_false w N (N + 1 * i) hw (by omega)
  rw [hnil, List.append_nil]

theorem setBitsBelow_lt (n w p : Nat) (h : p ∈ setBitsBelow n w) : p < n := by
  unfold setBitsBelow at h
  have := List.mem_filter.mp h
  exact List.mem_range.mp this.1

theorem byteSetBits_length (b : Nat) : (byteSetBits b).length = 8 := by
  unfold byteSetBits
  have h : (setBitsBelow 8 b).length ≤ 8 := by
    have := List.length_filter_le (b.testBit ·) (List.range 8)
    unfold setBitsBelow
    simpa using this
  simp
  omega

theorem genericPermute_eq (data idx : List Int)
    (h : ∀ i, i < data.length → idx.getD i 0 < (data.length : Int)) :
    genericPermute data idx =
      some ((List.range data.length).map (fun i =>
        if idx.getD i 0 < 0 then 0 else data.getD (idx.getD i 0).toNat 0)) := by
  unfold genericPermute
  apply mapM_eq_some_map
  intro i hi
  have hi' : i < data.length := List.mem_range.mp hi
  by_cases hneg : idx.getD i 0 < 0
  · rw [if_pos hneg, if_pos hneg]
  · have hlt : (idx.getD i 0).toNat < data.length := by
      have := h i hi'
      omega
    rw [if_neg hneg, if_neg hneg]
    rw [List.getElem?_eq_getElem hlt, List.getD_eq_getElem data 0 hlt]

/-- C5 counterexample: the `Batch64` variant of `genericPermute` does not
blank lanes with a negative index; on `data = [5,6,7]`, `idx = [2,-1,0]` it
performs an out-of-bounds access (modelled as `none`) instead of producing
the blanked batch `[7,0,5]` that the claim requires of every variant. -/
theorem genericPermuteBatch64_counterexample :
    ¬ (genericPermuteBatch64 [5, 6, 7] [2, -1, 0] = some [7, 0, 5]) := by
  decide

/-- C5 (amended): the full-width `genericPermute` overloads blank
negative-index lanes to zero and read lane `idx[i]` otherwise (for in-range
indices), but the half-width `Batch64` variant performs no negative-index
blanking: it requires every index to be in `[0, N)` and returns
`data[idx[i]]` for each lane. -/
theorem genericPermute_spec : ∀ data idx : List Int,
    ((∀ i, i < data.length → idx.getD i 0 < (data.length : Int)) →
      genericPermute data idx =
        some ((List.range data.length).map (fun i =>
          if idx.getD i 0 < 0 then 0 else data.getD (idx.getD i 0).toNat 0))) ∧
    ((∀ ix ∈ idx, 0 ≤ ix ∧ ix < (data.length : Int)) →
      genericPermuteBatch64 data idx =
        some (idx.map (fun ix => data.getD ix.toNat 0))) := by
  intro data idx
  constructor
  · exact genericPermute_eq data idx
  · intro h
    unfold genericPermuteBatch64
    apply mapM_eq_some_map
    intro ix hix
    rcases h ix hix with ⟨h0, hlt⟩
    have hlt' : ix.toNat < data.length := by omega
    rw [if_neg (by omega)]
    rw [List.getElem?_eq_getElem hlt', List.getD_eq_getElem data 0 hlt']

/-- Closed witness for `genericPermute_spec`: the spec example
`permute([5,6,7], [2,-1,0]) = [7,0,5]` for the full-width variant, and an
all-nonnegative example for the `Batch64` variant. -/
theorem genericPermute_spec_witness :
    genericPermute [5, 6, 7] [2, -1, 0] = some [7, 0, 5] ∧
    genericPermuteBatch64 [5, 6, 7] [2, 0] = some [7, 5] := by
  constructor
  · exact ((genericPermute_spec [5, 6, 7] [2, -1, 0]).1 (by decide)).trans (by decide)
  · exact ((genericPermute_spec [5, 6, 7] [2, 0]).2 (by decide)).trans (by decide)

/-- C6: `genericMaskGather(src, mask, base, vindex)` returns the batch whose
lane `i` is the element loaded from `base` at byte offset
`vindex[i] * kScale` when `mask` lane `i` is true, and `src` lane `i` when it
is false, provided every masked-true offset is in bounds. -/
theorem genericMaskGather_spec :
    ∀ (kScale : Int) (src : List Int) (mask : List Bool) (base : Int → Option Int)
      (vindex : List Int),
    (∀ i, i < src.length → mask.getD i false = true →
        (base (vindex.getD i 0 * kScale)).isSome) →
    genericMaskGather kScale src mask base vindex =
      some ((List.range src.length).map (fun i =>
        if mask.getD i false then (base (vindex.getD i 0 * kScale)).getD 0
        else src.getD i 0)) := by
  intro kScale src mask base vindex h
  unfold genericMaskGather
  apply mapM_eq_some_map
  intro i hi
  have hi' : i < src.length := List.mem_range.mp hi
  by_cases hm : mask.getD i false = true
  · rcases Option.isSome_iff_exists.mp (h i hi' hm) with ⟨v, hv⟩
    rw [if_pos hm, if_pos hm, hv]
    rfl
  · rw [if_neg hm, if_neg hm]

/-- Closed witness for `genericMaskGather_spec`: the spec example with base
elements `[100,110,120,130,140]` (4-byte elements), indices `[0,2,4]`,
mask `[true,false,true]`, `src = [1,2,3]`, which yields `[100,2,140]`. -/
theorem genericMaskGather_spec_witness :
    genericMaskGather 4 [1, 2, 3] [true, false, true] gatherExampleBase [0, 2, 4] =
      some [100, 2, 140] := by
  refine (genericMaskGather_spec 4 [1, 2, 3] [true, false, true] gatherExampleBase [0, 2, 4]
    ?_).trans ?_
  · decide
  · decide

theorem getD_ge_length {α : Type} (l : List α) (i : Nat) (d : α) (h : l.length ≤ i) :
    l.getD i d = d := by
  simp [List.getD_eq_getElem?_getD, List.getElem?_eq_none h]

theorem getD_mem_of_lt {α : Type} (l : List α) (i : Nat) (d : α) (h : i < l.length) :
    l.getD i d ∈ l := by
  rw [List.getD_eq_getElem l d h]
  exact List.getElem_mem h

theorem set_append_length {α : Type} (l r : List α) (v : α) :
    (l ++ r).set l.length v = l ++ r.set 0 v := by
  induction l with
  | nil => rfl
  | cons a l ih => simp [List.set, ih]

theorem Filter2_fold (data : List Int) (mask : Nat) :
    ∀ k, k ≤ data.length →
      (List.range k).foldl
        (fun st i => if mask.testBit i then (st.1.set st.2 (data.getD i 0), st.2 + 1) else st)
        (List.replicate data.length 0, 0) =
      ((setBitsBelow k mask).map (fun p => data.getD p 0) ++
        List.replicate (data.length - (setBitsBelow k mask).length) 0,
       (setBitsBelow k mask).length) := by
  intro k
  induction k with
  | zero =>
    intro _
    simp [setBitsBelow]
  | succ k ih =>
    intro hk
    rw [List.range_succ, List.foldl_append, ih (by omega)]
    simp only [List.foldl_cons, List.foldl_nil]
    have hsel : setBitsBelow (k + 1) mask =
        setBitsBelow k mask ++ (if mask.testBit k then [k] else []) := by
      unfold setBitsBelow
      rw [List.range_succ, List.filter_append]
      congr 1
      rw [List.filter_cons]
      split
      · rfl
      · rfl
    have hmlen : ((setBitsBelow k mask).map (fun p => data.getD p 0)).length =
        (setBitsBelow k mask).length := List.length_map _ _
    have hsellen : (setBitsBelow k mask).length ≤ k := by
      unfold setBitsBelow
      calc ((List.range k).filter (mask.testBit ·)).length
          ≤ (List.range k).length := List.length_filter_le _ _
        _ = k := List.length_range k
    by_cases hbit : mask.testBit k
    · rw [if_pos hbit, hsel, if_pos hbit]
      have hrepl : List.replicate (data.length - (setBitsBelow k mask).length) (0 : Int) =
          0 :: List.replicate (data.length - (setBitsBelow k mask ++ [k]).length) 0 := by
        have h1 : data.length - (setBitsBelow k mask).length =
            (data.length - (setBitsBelow k mask ++ [k]).length) + 1 := by
          simp only [List.length_append, List.length_cons, List.length_nil]
          omega
        rw [h1, List.replicate_succ]
      rw [hrepl, ← hmlen, set_append_length]
      simp only [List.set_cons_zero, List.map_append, List.map_cons, List.map_nil,
        List.length_append, List.length_cons, List.length_nil, List.length_map,
        List.append_assoc, List.singleton_append]
    · rw [if_neg hbit, hsel, if_neg hbit, List.append_nil]

theorem Filter2_apply_eq (data : List Int) (mask : Nat) :
    Filter2_apply data mask =
      (setBitsBelow data.length mask).map (fun p => data.getD p 0) ++
        List.replicate (data.length - (setBitsBelow data.length mask).length) 0 := by
  unfold Filter2_apply
  rw [Filter2_fold data mask data.length (Nat.le_refl _)]

/-- C10: for 2-byte elements, `filter(data, bitmask)` guarantees more than the
spec's "unspecified trailing lanes": every result lane at index ≥
`popcount(bitmask)` is exactly zero, because the result batch is
zero-initialized before the selected lanes are written. -/
theorem Filter2_trailing_zero : ∀ (data : List Int) (mask : Nat), mask < 2 ^ data.length →
    ∀ i, popCount mask ≤ i → i < data.length → (Filter2_apply data mask).getD i 0 = 0 := by
  intro data mask hm i hpc hiN
  rw [Filter2_apply_eq]
  have hpceq : popCount mask = (setBitsBelow data.length mask).length :=
    popCount_eq_length _ _ hm
  have hmaplen : ((setBitsBelow data.length mask).map (fun p => data.getD p 0)).length =
      (setBitsBelow data.length mask).length := List.length_map _ _
  rw [getD_append_right _ _ _ _ (by omega)]
  rw [hmaplen]
  exact getD_replicate _ _ _ _ (by omega)

/-- Closed witness for `Filter2_trailing_zero`: the spec's filter example,
lane 5 (≥ popcount = 4) of the result is zero. -/
theorem Filter2_trailing_zero_witness :
    (Filter2_apply [10, 20, 30, 40, 50, 60, 70, 80] 0xB1).getD 5 0 = 0 := by
  have hpc : popCount 0xB1 = 4 := by simp [popCount]
  exact Filter2_trailing_zero [10, 20, 30, 40, 50, 60, 70, 80] 0xB1 (by decide) 5
    (by omega) (by decide)

theorem byteSetBits_getD_lt (mask N i : Nat) (hm : mask < 2 ^ N) (hN : N ≤ 8) (h0 : 0 < N) :
    (byteSetBits mask).getD i 0 < N := by
  unfold byteSetBits
  by_cases hi : i < (setBitsBelow 8 mask).length
  · rw [getD_append_left _ _ _ _ hi]
    have hmem := getD_mem_of_lt (setBitsBelow 8 mask) i 0 hi
    have hbit := List.mem_filter.mp hmem
    by_contra hge
    have : mask.testBit ((setBitsBelow 8 mask).getD i 0) = false :=
      testBit_ge_false mask N _ hm (by omega)
    rw [this] at hbit
    exact absurd hbit.2 (by simp)
  · rw [getD_append_right _ _ _ _ (by omega)]
    by_cases h8 : i - (setBitsBelow 8 mask).length < 8 - (setBitsBelow 8 mask).length
    · rw [getD_replicate _ _ _ _ (by simpa using h8)]
      omega
    · rw [getD_ge_length _ _ _ (by simp; omega)]
      omega

theorem byteSetBits_getD_front (mask i : Nat) (hi : i < (setBitsBelow 8 mask).length) :
    (byteSetBits mask).getD i 0 = (setBitsBelow 8 mask).getD i 0 := by
  unfold byteSetBits
  exact getD_append_left _ _ _ _ hi

/-- C1: `filter(data, bitmask)` places the lanes of `data` whose bit is set
in `bitmask` into the first `popcount(bitmask)` result lanes, in ascending
original-lane order (the selected lane indices `setBitsBelow N mask` are
strictly increasing), left-packed from lane 0.  The scalar write-pointer
implementation (2-byte elements) is covered for every lane count, including
the 16- and 32-lane batches of the 32- and 64-byte architectures; the
`byteSetBits`-table-plus-permute implementations (4- and 8-byte elements,
full- and half-batch) for their inherent domain of at most 8 lanes (the
table is indexed by one mask byte).  Trailing lanes are unconstrained. -/
theorem filter_spec : ∀ (data : List Int) (mask : Nat),
    mask < 2 ^ data.length →
    (setBitsBelow data.length mask).Pairwise (· < ·) ∧
    (setBitsBelow data.length mask).length = popCount mask ∧
    (∀ i, i < popCount mask →
      (Filter2_apply data mask).getD i 0 =
        data.getD ((setBitsBelow data.length mask).getD i 0) 0) ∧
    (data.length ≤ 8 → 0 < data.length →
      ∃ r, FilterTable_apply data mask = some r ∧
        ∀ i, i < popCount mask →
          r.getD i 0 = data.getD ((setBitsBelow data.length mask).getD i 0) 0) := by
  intro data mask hm
  have hpceq : popCount mask = (setBitsBelow data.length mask).length :=
    popCount_eq_length _ _ hm
  refine ⟨?_, hpceq.symm, ?_, ?_⟩
  · exact List.Pairwise.filter _
      (by rw [List.range_eq_range']; exact List.pairwise_lt_range' 0 data.length)
  · intro i hi
    rw [Filter2_apply_eq]
    have hmaplen : ((setBitsBelow data.length mask).map (fun p => data.getD p 0)).length =
        (setBitsBelow data.length mask).length := List.length_map _ _
    rw [getD_append_left _ _ _ _ (by omega)]
    exact getD_map_of_lt _ _ _ _ 0 (by omega)
  · intro hN h0
    have hmono : setBitsBelow 8 mask = setBitsBelow data.length mask :=
      setBitsBelow_mono data.length 8 mask hN hm
    have hblen : (byteSetBits mask).length = 8 := byteSetBits_length mask
    have hr := genericPermute_eq data ((byteSetBits mask).map (Nat.cast : Nat → Int)) ?side
    case side =>
      intro i hi
      rw [getD_map_of_lt (Nat.cast : Nat → Int) _ _ _ 0 (by rw [hblen]; omega)]
      have hb := byteSetBits_getD_lt mask data.length i hm hN h0
      exact_mod_cast hb
    refine ⟨_, hr, ?_⟩
    intro i hi
    have hsetlen : (setBitsBelow data.length mask).length ≤ data.length := by
      unfold setBitsBelow
      calc ((List.range data.length).filter (mask.testBit ·)).length
          ≤ (List.range data.length).length := List.length_filter_le _ _
        _ = data.length := List.length_range data.length
    have hiN : i < data.length := by omega
    rw [getD_map_of_lt _ _ _ _ 0 (by simpa using hiN)]
    have hgr : (List.range data.length).getD i 0 = i := by
      rw [List.getD_eq_getElem _ _ (by simpa using hiN)]
      simp
    rw [hgr]
    rw [getD_map_of_lt (Nat.cast : Nat → Int) _ _ _ 0 (by rw [hblen]; omega)]
    have hpref : (byteSetBits mask).getD i 0 = (setBitsBelow data.length mask).getD i 0 := by
      rw [byteSetBits_getD_front mask i (by rw [hmono]; omega), hmono]
    rw [if_neg (not_lt.mpr (Int.natCast_nonneg _)), hpref]
    simp

/-- Closed witness for `filter_spec`: the spec example
`data = [10,20,30,40,50,60,70,80]`, `mask = 0b10110001` (popcount 4), whose
first four filtered lanes are `[10,50,60,80]` on both implementations. -/
theorem filter_spec_witness :
    (Filter2_apply [10, 20, 30, 40, 50, 60, 70, 80] 0xB1).getD 0 0 = 10 ∧
    (Filter2_apply [10, 20, 30, 40, 50, 60, 70, 80] 0xB1).getD 3 0 = 80 ∧
    (FilterTable_apply [10, 20, 30, 40, 50, 60, 70, 80] 0xB1).isSome = true := by
  have hpc : popCount 0xB1 = 4 := by simp [popCount]
  have h := filter_spec [10, 20, 30, 40, 50, 60, 70, 80] 0xB1 (by decide)
  refine ⟨?_, ?_, ?_⟩
  · exact (h.2.2.1 0 (by omega)).trans (by decide)
  · exact (h.2.2.1 3 (by omega)).trans (by decide)
  · rcases h.2.2.2 (by decide) (by decide) with ⟨r, hr, _⟩
    rw [hr]
    rfl

theorem naiveCopy_zero (dst src : Nat → Nat) (t f j : Nat) :
    naiveCopy dst src t f 0 j = dst j := by
  unfold naiveCopy
  rw [if_neg (by omega)]

theorem naiveCopy_congr_dst (d1 d2 src : Nat → Nat) (t f n j : Nat)
    (h : ∀ i, d1 i = d2 i) :
    naiveCopy d1 src t f n j = naiveCopy d2 src t f n j := by
  unfold naiveCopy
  split
  · rfl
  · exact h j

theorem naiveCopy_glue (dst src : Nat → Nat) (t f a b j : Nat) :
    naiveCopy (naiveCopy dst src t f a) src (t + a) (f + a) b j =
      naiveCopy dst src t f (a + b) j := by
  unfold naiveCopy
  by_cases h1 : t + a ≤ j ∧ j < t + a + b
  · rw [if_pos h1, if_pos (by omega)]
    congr 1
    omega
  · rw [if_neg h1]
    by_cases h2 : t ≤ j ∧ j < t + a
    · rw [if_pos h2, if_pos (by omega)]
    · rw [if_neg h2, if_neg (by omega)]

theorem naive_then (dst src : Nat → Nat) (t f a b : Nat) (d2 : Nat → Nat)
    (hd : ∀ i, d2 i = naiveCopy dst src t f a i) (j : Nat) :
    naiveCopy d2 src (t + a) (f + a) b j = naiveCopy dst src t f (a + b) j := by
  rw [naiveCopy_congr_dst d2 (naiveCopy dst src t f a) src (t + a) (f + a) b j hd]
  exact naiveCopy_glue dst src t f a b j

theorem copyNextWord_small (sz : Nat) (src : Nat → Nat) (s : CopyState) (h : s.bytes < sz) :
    copyNextWord sz src s = (s, true) := by
  unfold copyNextWord
  rw [if_neg (by omega)]

theorem copyNextWord_exact (sz : Nat) (src : Nat → Nat) (s : CopyState)
    (h1 : sz ≤ s.bytes) (h2 : s.bytes - sz = 0) :
    copyNextWord sz src s = (⟨copyWordBytes sz src s, s.toOff, s.fromOff, 0⟩, false) := by
  unfold copyNextWord
  rw [if_pos h1, if_pos h2]

theorem copyNextWord_step (sz : Nat) (src : Nat → Nat) (s : CopyState)
    (h1 : sz ≤ s.bytes) (h2 : s.bytes - sz ≠ 0) :
    copyNextWord sz src s =
      (⟨copyWordBytes sz src s, s.toOff + sz, s.fromOff + sz, s.bytes - sz⟩, true) := by
  unfold copyNextWord
  rw [if_pos h1, if_neg h2]

theorem copyNextWord_spec (sz : Nat) (src : Nat → Nat) (s : CopyState) :
    ((copyNextWord sz src s).2 = false →
      ∀ j, (copyNextWord sz src s).1.dst j = naiveCopy s.dst src s.toOff s.fromOff s.bytes j) ∧
    ((copyNextWord sz src s).2 = true → ∃ k, k ≤ s.bytes ∧
      ((k = 0 ∧ s.bytes < sz) ∨ (k = sz ∧ sz ≤ s.bytes ∧ s.bytes - sz ≠ 0)) ∧
      (copyNextWord sz src s).1.toOff = s.toOff + k ∧
      (copyNextWord sz src s).1.fromOff = s.fromOff + k ∧
      (copyNextWord sz src s).1.bytes = s.bytes - k ∧
      ∀ j, (copyNextWord sz src s).1.dst j = naiveCopy s.dst src s.toOff s.fromOff k j) := by
  by_cases hc : sz ≤ s.bytes
  · by_cases hz : s.bytes - sz = 0
    · rw [copyNextWord_exact sz src s hc hz]
      constructor
      · intro _ j
        have hb : s.bytes = sz := by omega
        rw [hb]
        rfl
      · intro hfl
        exact absurd hfl (by simp)
    · rw [copyNextWord_step sz src s hc hz]
      constructor
      · intro hfl
        exact absurd hfl (by simp)
      · intro _
        exact ⟨sz, by omega, Or.inr ⟨rfl, hc, hz⟩, rfl, rfl, rfl, fun j => rfl⟩
  · rw [copyNextWord_small sz src s (by omega)]
    constructor
    · intro hfl
      exact absurd hfl (by simp)
    · intro _
      exact ⟨0, by omega, Or.inl ⟨rfl, by omega⟩, by simp, by simp, by simp,
        fun j => (naiveCopy_zero s.dst src s.toOff s.fromOff j).symm⟩

theorem memcpyLoop_spec (sz : Nat) (src : Nat → Nat) (hsz : 0 < sz) :
    ∀ n (s : CopyState), s.bytes = n →
      ((memcpyLoop sz src s).2 = false →
        ∀ j, (memcpyLoop sz src s).1.dst j = naiveCopy s.dst src s.toOff s.fromOff s.bytes j) ∧
      ((memcpyLoop sz src s).2 = true → ∃ k, k ≤ s.bytes ∧ s.bytes - k < sz ∧
        (memcpyLoop sz src s).1.toOff = s.toOff + k ∧
        (memcpyLoop sz src s).1.fromOff = s.fromOff + k ∧
        (memcpyLoop sz src s).1.bytes = s.bytes - k ∧
        ∀ j, (memcpyLoop sz src s).1.dst j = naiveCopy s.dst src s.toOff s.fromOff k j) := by
  intro n
  induction n using Nat.strong_induction_on with
  | _ n ih =>
    intro s hs
    by_cases hc : sz ≤ s.bytes
    · by_cases hz : s.bytes - sz = 0
      · have hcn := copyNextWord_exact sz src s hc hz
        have hloop : memcpyLoop sz src s = ((copyNextWord sz src s).1, false) := by
          unfold memcpyLoop
          rw [dif_pos ⟨hsz, hc⟩, hcn]
          simp
        rw [hloop, hcn]
        constructor
        · intro _ j
          have hb : s.bytes = sz := by omega
          rw [hb]
          rfl
        · intro hfl
          exact absurd hfl (by simp)
      · have hcn := copyNextWord_step sz src s hc hz
        have hloop : memcpyLoop sz src s = memcpyLoop sz src (copyNextWord sz src s).1 := by
          conv_lhs => rw [memcpyLoop]
          rw [dif_pos ⟨hsz, hc⟩, hcn]
          simp
        have hbytes : (copyNextWord sz src s).1.bytes = s.bytes - sz := by rw [hcn]
        have ihs := ih (s.bytes - sz) (by omega) (copyNextWord sz src s).1 hbytes
        rw [hloop]
        constructor
        · intro hfl j
          have h1 := ihs.1 hfl j
          rw [h1, hcn]
          have h2 := naive_then s.dst src s.toOff s.fromOff sz (s.bytes - sz)
            (copyWordBytes sz src s) (fun i => rfl) j
          rw [h2]
          have hb : sz + (s.bytes - sz) = s.bytes := by omega
          rw [hb]
        · intro hfl
          rcases ihs.2 hfl with ⟨k, hk1, hk2, ht, hf, hb, hdst⟩
          refine ⟨sz + k, ?_, ?_, ?_, ?_, ?_, ?_⟩
          · rw [hcn] at hk1
            simp at hk1
            omega
          · rw [hcn] at hk2
            simp at hk2
            omega
          · rw [ht, hcn]
            simp
            omega
          · rw [hf, hcn]
            simp
            omega
          · rw [hb, hcn]
            simp
            omega
          · intro j
            have h1 := hdst j
            rw [h1, hcn]
            have h2 := naive_then s.dst src s.toOff s.fromOff sz k
              (copyWordBytes sz src s) (fun i => rfl) j
            exact h2
    · have hloop : memcpyLoop sz src s = (s, true) := by
        unfold memcpyLoop
        rw [dif_neg (by omega)]
      rw [hloop]
      constructor
      · intro hfl
        exact absurd hfl (by simp)
      · intro _
        exact ⟨0, by omega, by omega, by simp, by simp, by simp,
          fun j => (naiveCopy_zero s.dst src s.toOff s.fromOff j).symm⟩

theorem stage_glue (dst0 src : Nat → Nat) (toOff fromOff bytes k : Nat) (s1 : CopyState)
    (hk : k ≤ bytes)
    (ht : s1.toOff = toOff + k) (hf : s1.fromOff = fromOff + k) (hbb : s1.bytes = bytes - k)
    (hd : ∀ i, s1.dst i = naiveCopy dst0 src toOff fromOff k i) (j : Nat) :
    naiveCopy s1.dst src s1.toOff s1.fromOff s1.bytes j =
      naiveCopy dst0 src toOff fromOff bytes j := by
  rw [ht, hf, hbb]
  rw [naive_then dst0 src toOff fromOff k (bytes - k) s1.dst hd j]
  have hkb : k + (bytes - k) = bytes := by omega
  rw [hkb]

theorem chain_progress (dst0 src : Nat → Nat) (toOff fromOff bytes : Nat)
    (s1 s2 : CopyState) (k1 k2 : Nat)
    (hk1 : k1 ≤ bytes) (ht1 : s1.toOff = toOff + k1) (hf1 : s1.fromOff = fromOff + k1)
    (hb1 : s1.bytes = bytes - k1) (hd1 : ∀ i, s1.dst i = naiveCopy dst0 src toOff fromOff k1 i)
    (hk2 : k2 ≤ s1.bytes) (ht2 : s2.toOff = s1.toOff + k2) (hf2 : s2.fromOff = s1.fromOff + k2)
    (hb2 : s2.bytes = s1.bytes - k2)
    (hd2 : ∀ i, s2.dst i = naiveCopy s1.dst src s1.toOff s1.fromOff k2 i) :
    k1 + k2 ≤ bytes ∧ s2.toOff = toOff + (k1 + k2) ∧ s2.fromOff = fromOff + (k1 + k2) ∧
    s2.bytes = bytes - (k1 + k2) ∧
    ∀ i, s2.dst i = naiveCopy dst0 src toOff fromOff (k1 + k2) i := by
  refine ⟨by omega, by omega, by omega, by omega, ?_⟩
  intro i
  rw [hd2 i, ht1, hf1]
  exact naive_then dst0 src toOff fromOff k1 k2 s1.dst hd1 i

theorem memcpy_eq_naive (batchBytes : Nat) (hb : 0 < batchBytes)
    (src dst0 : Nat → Nat) (toOff fromOff bytes j : Nat) :
    memcpy batchBytes src dst0 toOff fromOff bytes j =
      naiveCopy dst0 src toOff fromOff bytes j := by
  simp only [memcpy]
  have h1 := memcpyLoop_spec batchBytes src hb bytes ⟨dst0, toOff, fromOff, bytes⟩ rfl
  by_cases f1 : (memcpyLoop batchBytes src ⟨dst0, toOff, fromOff, bytes⟩).2 = false
  · rw [if_pos f1]
    exact h1.1 f1 j
  · rw [if_neg f1]
    rcases h1.2 (by revert f1; cases (memcpyLoop batchBytes src
      ⟨dst0, toOff, fromOff, bytes⟩).2 <;> simp) with ⟨k1, hk1, hr1, ht1, hf1, hb1, hd1⟩
    set s1 := (memcpyLoop batchBytes src ⟨dst0, toOff, fromOff, bytes⟩).1 with hs1
    have h2 := memcpyLoop_spec 8 src (by omega) s1.bytes s1 rfl
    by_cases f2 : (memcpyLoop 8 src s1).2 = false
    · rw [if_pos f2]
      have hd := h2.1 f2 j
      rw [hd]
      exact stage_glue dst0 src toOff fromOff bytes k1 s1 hk1 ht1 hf1 hb1 hd1 j
    · rw [if_neg f2]
      rcases h2.2 (by revert f2; cases (memcpyLoop 8 src s1).2 <;> simp) with
        ⟨k2, hk2, hr2, ht2, hf2, hb2, hd2⟩
      set s2 := (memcpyLoop 8 src s1).1 with hs2
      rcases chain_progress dst0 src toOff fromOff bytes s1 s2 k1 k2 hk1 ht1 hf1 hb1 hd1
        hk2 ht2 hf2 hb2 hd2 with ⟨hK2, hT2, hF2, hB2, hD2⟩
      have hrem2 : s2.bytes < 8 := by omega
      have h3 := copyNextWord_spec 4 src s2
      by_cases f3 : (copyNextWord 4 src s2).2 = false
      · rw [if_pos f3]
        have hd := h3.1 f3 j
        rw [hd]
        exact stage_glue dst0 src toOff fromOff bytes (k1 + k2) s2 hK2 hT2 hF2 hB2 hD2 j
      · rw [if_neg f3]
        rcases h3.2 (by revert f3; cases (copyNextWord 4 src s2).2 <;> simp) with
          ⟨k3, hk3, hr3, ht3, hf3, hb3, hd3⟩
        set s3 := (copyNextWord 4 src s2).1 with hs3
        rcases chain_progress dst0 src toOff fromOff bytes s2 s3 (k1 + k2) k3 hK2 hT2 hF2 hB2
          hD2 hk3 ht3 hf3 hb3 hd3 with ⟨hK3, hT3, hF3, hB3, hD3⟩
        have hrem3 : s3.bytes < 4 := by
          rcases hr3 with ⟨hz, hlt⟩ | ⟨hz, hle, hne⟩ <;> omega
        have h4 := copyNextWord_spec 2 src s3
        by_cases f4 : (copyNextWord 2 src s3).2 = false
        · rw [if_pos f4]
          have hd := h4.1 f4 j
          rw [hd]
          exact stage_glue dst0 src toOff fromOff bytes (k1 + k2 + k3) s3 hK3 hT3 hF3 hB3 hD3 j
        · rw [if_neg f4]
          rcases h4.2 (by revert f4; cases (copyNextWord 2 src s3).2 <;> simp) with
            ⟨k4, hk4, hr4, ht4, hf4, hb4, hd4⟩
          set s4 := (copyNextWord 2 src s3).1 with hs4
          rcases chain_progress dst0 src toOff fromOff bytes s3 s4 (k1 + k2 + k3) k4 hK3 hT3
            hF3 hB3 hD3 hk4 ht4 hf4 hb4 hd4 with ⟨hK4, hT4, hF4, hB4, hD4⟩
          have hrem4 : s4.bytes < 2 := by
            rcases hr4 with ⟨hz, hlt⟩ | ⟨hz, hle, hne⟩ <;> omega
          have h5 := copyNextWord_spec 1 src s4
          by_cases f5 : (copyNextWord 1 src s4).2 = false
          · have hd := h5.1 f5 j
            rw [hd]
            exact stage_glue dst0 src toOff fromOff bytes (k1 + k2 + k3 + k4) s4 hK4 hT4 hF4
              hB4 hD4 j
          · rcases h5.2 (by revert f5; cases (copyNextWord 1 src s4).2 <;> simp) with
              ⟨k5, hk5, hr5, ht5, hf5, hb5, hd5⟩
            have hz5 : s4.bytes = 0 := by
              rcases hr5 with ⟨hz, hlt⟩ | ⟨hz, hle, hne⟩ <;> omega
            have hk50 : k5 = 0 := by omega
            have hd := hd5 j
            rw [hk50] at hd
            rw [hd, naiveCopy_zero]
            have hbytes : bytes = k1 + k2 + k3 + k4 := by omega
            rw [hD4 j, ← hbytes]

theorem naiveFill_zero (dst : Nat → Nat) (t d j : Nat) :
    naiveFill dst t 0 d j = dst j := by
  unfold naiveFill
  rw [if_neg (by omega)]

theorem naiveFill_congr_dst (d1 d2 : Nat → Nat) (t n d j : Nat)
    (h : ∀ i, d1 i = d2 i) :
    naiveFill d1 t n d j = naiveFill d2 t n d j := by
  unfold naiveFill
  split
  · rfl
  · exact h j

theorem naiveFill_glue (dst : Nat → Nat) (t a b d j : Nat) :
    naiveFill (naiveFill dst t a d) (t + a) b d j = naiveFill dst t (a + b) d j := by
  unfold naiveFill
  by_cases h1 : t + a ≤ j ∧ j < t + a + b
  · rw [if_pos h1, if_pos (by omega)]
  · rw [if_neg h1]
    by_cases h2 : t ≤ j ∧ j < t + a
    · rw [if_pos h2, if_pos (by omega)]
    · rw [if_neg h2, if_neg (by omega)]

theorem fill_then (dst : Nat → Nat) (t a b d : Nat) (d2 : Nat → Nat)
    (hd : ∀ i, d2 i = naiveFill dst t a d i) (j : Nat) :
    naiveFill d2 (t + a) b d j = naiveFill dst t (a + b) d j := by
  rw [naiveFill_congr_dst d2 (naiveFill dst t a d) (t + a) b d j hd]
  exact naiveFill_glue dst t a b d j

theorem setNextWord_small (sz d : Nat) (s : SetState) (h : s.bytes < sz) :
    setNextWord sz d s = (s, true) := by
  unfold setNextWord
  rw [if_neg (by omega)]

theorem setNextWord_exact (sz d : Nat) (s : SetState)
    (h1 : sz ≤ s.bytes) (h2 : s.bytes - sz = 0) :
    setNextWord sz d s = (⟨setWordBytes sz d s, s.toOff, 0⟩, false) := by
  unfold setNextWord
  rw [if_pos h1, if_pos h2]

theorem setNextWord_step (sz d : Nat) (s : SetState)
    (h1 : sz ≤ s.bytes) (h2 : s.bytes - sz ≠ 0) :
    setNextWord sz d s = (⟨setWordBytes sz d s, s.toOff + sz, s.bytes - sz⟩, true) := by
  unfold setNextWord
  rw [if_pos h1, if_neg h2]

theorem setNextWord_spec (sz d : Nat) (s : SetState) :
    ((setNextWord sz d s).2 = false →
      ∀ j, (setNextWord sz d s).1.dst j = naiveFill s.dst s.toOff s.bytes d j) ∧
    ((setNextWord sz d s).2 = true → ∃ k, k ≤ s.bytes ∧
      ((k = 0 ∧ s.bytes < sz) ∨ (k = sz ∧ sz ≤ s.bytes ∧ s.bytes - sz ≠ 0)) ∧
      (setNextWord sz d s).1.toOff = s.toOff + k ∧
      (setNextWord sz d s).1.bytes = s.bytes - k ∧
      ∀ j, (setNextWord sz d s).1.dst j = naiveFill s.dst s.toOff k d j) := by
  by_cases hc : sz ≤ s.bytes
  · by_cases hz : s.bytes - sz = 0
    · rw [setNextWord_exact sz d s hc hz]
      constructor
      · intro _ j
        have hb : s.bytes = sz := by omega
        rw [hb]
        rfl
      · intro hfl
        exact absurd hfl (by simp)
    · rw [setNextWord_step sz d s hc hz]
      constructor
      · intro hfl
        exact absurd hfl (by simp)
      · intro _
        exact ⟨sz, by omega, Or.inr ⟨rfl, hc, hz⟩, rfl, rfl, fun j => rfl⟩
  · rw [setNextWord_small sz d s (by omega)]
    constructor
    · intro hfl
      exact absurd hfl (by simp)
    · intro _
      exact ⟨0, by omega, Or.inl ⟨rfl, by omega⟩, by simp, by simp,
        fun j => (naiveFill_zero s.dst s.toOff d j).symm⟩

theorem memsetLoop_spec (sz d : Nat) (hsz : 0 < sz) :
    ∀ n (s : SetState), s.bytes = n →
      ((memsetLoop sz d s).2 = false →
        ∀ j, (memsetLoop sz d s).1.dst j = naiveFill s.dst s.toOff s.bytes d j) ∧
      ((memsetLoop sz d s).2 = true → ∃ k, k ≤ s.bytes ∧ s.bytes - k < sz ∧
        (memsetLoop sz d s).1.toOff = s.toOff + k ∧
        (memsetLoop sz d s).1.bytes = s.bytes - k ∧
        ∀ j, (memsetLoop sz d s).1.dst j = naiveFill s.dst s.toOff k d j) := by
  intro n
  induction n using Nat.strong_induction_on with
  | _ n ih =>
    intro s hs
    by_cases hc : sz ≤ s.bytes
    · by_cases hz : s.bytes - sz = 0
      · have hcn := setNextWord_exact sz d s hc hz
        have hloop : memsetLoop sz d s = ((setNextWord sz d s).1, false) := by
          unfold memsetLoop
          rw [dif_pos ⟨hsz, hc⟩, hcn]
          simp
        rw [hloop, hcn]
        constructor
        · intro _ j
          have hb : s.bytes = sz := by omega
          rw [hb]
          rfl
        · intro hfl
          exact absurd hfl (by simp)
      · have hcn := setNextWord_step sz d s hc hz
        have hloop : memsetLoop sz d s = memsetLoop sz d (setNextWord sz d s).1 := by
          conv_lhs => rw [memsetLoop]
          rw [dif_pos ⟨hsz, hc⟩, hcn]
          simp
        have hbytes : (setNextWord sz d s).1.bytes = s.bytes - sz := by rw [hcn]
        have ihs := ih (s.bytes - sz) (by omega) (setNextWord sz d s).1 hbytes
        rw [hloop]
        constructor
        · intro hfl j
          have h1 := ihs.1 hfl j
          rw [h1, hcn]
          have h2 := fill_then s.dst s.toOff sz (s.bytes - sz) d
            (setWordBytes sz d s) (fun i => rfl) j
          rw [h2]
          have hb : sz + (s.bytes - sz) = s.bytes := by omega
          rw [hb]
        · intro hfl
          rcases ihs.2 hfl with ⟨k, hk1, hk2, ht, hbb, hdst⟩
          refine ⟨sz + k, ?_, ?_, ?_, ?_, ?_⟩
          · rw [hcn] at hk1
            simp at hk1
            omega
          · rw [hcn] at hk2
            simp at hk2
            omega
          · rw [ht, hcn]
            simp
            omega
          · rw [hbb, hcn]
            simp
            omega
          · intro j
            have h1 := hdst j
            rw [h1, hcn]
            exact fill_then s.dst s.toOff sz k d (setWordBytes sz d s) (fun i => rfl) j
    · have hloop : memsetLoop sz d s = (s, true) := by
        unfold memsetLoop
        rw [dif_neg (by omega)]
      rw [hloop]
      constructor
      · intro hfl
        exact absurd hfl (by simp)
      · intro _
        exact ⟨0, by omega, by omega, by simp, by simp,
          fun j => (naiveFill_zero s.dst s.toOff d j).symm⟩

theorem fill_stage_glue (dst0 : Nat → Nat) (toOff bytes d k : Nat) (s1 : SetState)
    (hk : k ≤ bytes)
    (ht : s1.toOff = toOff + k) (hbb : s1.bytes = bytes - k)
    (hd : ∀ i, s1.dst i = naiveFill dst0 toOff k d i) (j : Nat) :
    naiveFill s1.dst s1.toOff s1.bytes d j = naiveFill dst0 toOff bytes d j := by
  rw [ht, hbb]
  rw [fill_then dst0 toOff k (bytes - k) d s1.dst hd j]
  have hkb : k + (bytes - k) = bytes := by omega
  rw [hkb]

theorem fill_chain_progress (dst0 : Nat → Nat) (toOff bytes d : Nat)
    (s1 s2 : SetState) (k1 k2 : Nat)
    (hk1 : k1 ≤ bytes) (ht1 : s1.toOff = toOff + k1)
    (hb1 : s1.bytes = bytes - k1) (hd1 : ∀ i, s1.dst i = naiveFill dst0 toOff k1 d i)
    (hk2 : k2 ≤ s1.bytes) (ht2 : s2.toOff = s1.toOff + k2)
    (hb2 : s2.bytes = s1.bytes - k2)
    (hd2 : ∀ i, s2.dst i = naiveFill s1.dst s1.toOff k2 d i) :
    k1 + k2 ≤ bytes ∧ s2.toOff = toOff + (k1 + k2) ∧
    s2.bytes = bytes - (k1 + k2) ∧
    ∀ i, s2.dst i = naiveFill dst0 toOff (k1 + k2) d i := by
  refine ⟨by omega, by omega, by omega, ?_⟩
  intro i
  rw [hd2 i, ht1]
  exact fill_then dst0 toOff k1 k2 d s1.dst hd1 i

theorem memset_eq_naive (batchBytes : Nat) (hb : 0 < batchBytes)
    (dst0 : Nat → Nat) (toOff d bytes j : Nat) :
    memset batchBytes dst0 toOff d bytes j = naiveFill dst0 toOff bytes d j := by
  simp only [memset]
  have h1 := memsetLoop_spec batchBytes d hb bytes ⟨dst0, toOff, bytes⟩ rfl
  by_cases f1 : (memsetLoop batchBytes d ⟨dst0, toOff, bytes⟩).2 = false
  · rw [if_pos f1]
    exact h1.1 f1 j
  · rw [if_neg f1]
    rcases h1.2 (by revert f1; cases (memsetLoop batchBytes d
      ⟨dst0, toOff, bytes⟩).2 <;> simp) with ⟨k1, hk1, hr1, ht1, hb1, hd1⟩
    set s1 := (memsetLoop batchBytes d ⟨dst0, toOff, bytes⟩).1 with hs1
    have h2 := memsetLoop_spec 8 d (by omega) s1.bytes s1 rfl
    by_cases f2 : (memsetLoop 8 d s1).2 = false
    · rw [if_pos f2]
      have hd := h2.1 f2 j
      rw [hd]
      exact fill_stage_glue dst0 toOff bytes d k1 s1 hk1 ht1 hb1 hd1 j
    · rw [if_neg f2]
      rcases h2.2 (by revert f2; cases (memsetLoop 8 d s1).2 <;> simp) with
        ⟨k2, hk2, hr2, ht2, hb2, hd2⟩
      set s2 := (memsetLoop 8 d s1).1 with hs2
      rcases fill_chain_progress dst0 toOff bytes d s1 s2 k1 k2 hk1 ht1 hb1 hd1
        hk2 ht2 hb2 hd2 with ⟨hK2, hT2, hB2, hD2⟩
      have hrem2 : s2.bytes < 8 := by omega
      have h3 := setNextWord_spec 4 d s2
      by_cases f3 : (setNextWord 4 d s2).2 = false
      · rw [if_pos f3]
        have hd := h3.1 f3 j
        rw [hd]
        exact fill_stage_glue dst0 toOff bytes d (k1 + k2) s2 hK2 hT2 hB2 hD2 j
      · rw [if_neg f3]
        rcases h3.2 (by revert f3; cases (setNextWord 4 d s2).2 <;> simp) with
          ⟨k3, hk3, hr3, ht3, hb3, hd3⟩
        set s3 := (setNextWord 4 d s2).1 with hs3
        rcases fill_chain_progress dst0 toOff bytes d s2 s3 (k1 + k2) k3 hK2 hT2 hB2
          hD2 hk3 ht3 hb3 hd3 with ⟨hK3, hT3, hB3, hD3⟩
        have hrem3 : s3.bytes < 4 := by
          rcases hr3 with ⟨hz, hlt⟩ | ⟨hz, hle, hne⟩ <;> omega
        have h4 := setNextWord_spec 2 d s3
        by_cases f4 : (setNextWord 2 d s3).2 = false
        · rw [if_pos f4]
          have hd := h4.1 f4 j
          rw [hd]
          exact fill_stage_glue dst0 toOff bytes d (k1 + k2 + k3) s3 hK3 hT3 hB3 hD3 j
        · rw [if_neg f4]
          rcases h4.2 (by revert f4; cases (setNextWord 2 d s3).2 <;> simp) with
            ⟨k4, hk4, hr4, ht4, hb4, hd4⟩
          set s4 := (setNextWord 2 d s3).1 with hs4
          rcases fill_chain_progress dst0 toOff bytes d s3 s4 (k1 + k2 + k3) k4 hK3 hT3
            hB3 hD3 hk4 ht4 hb4 hd4 with ⟨hK4, hT4, hB4, hD4⟩
          have hrem4 : s4.bytes < 2 := by
            rcases hr4 with ⟨hz, hlt⟩ | ⟨hz, hle, hne⟩ <;> omega
          have h5 := setNextWord_spec 1 d s4
          by_cases f5 : (setNextWord 1 d s4).2 = false
          · have hd := h5.1 f5 j
            rw [hd]
            exact fill_stage_glue dst0 toOff bytes d (k1 + k2 + k3 + k4) s4 hK4 hT4 hB4 hD4 j
          · rcases h5.2 (by revert f5; cases (setNextWord 1 d s4).2 <;> simp) with
              ⟨k5, hk5, hr5, ht5, hb5, hd5⟩
            have hz5 : s4.bytes = 0 := by
              rcases hr5 with ⟨hz, hlt⟩ | ⟨hz, hle, hne⟩ <;> omega
            have hk50 : k5 = 0 := by omega
            have hd := hd5 j
            rw [hk50] at hd
            rw [hd, naiveFill_zero]
            have hbytes : bytes = k1 + k2 + k3 + k4 := by omega
            rw [hD4 j, ← hbytes]

/-- C3: for every byte count and any relative alignment of source and
destination, `memcpy(to, from, bytes, arch)` makes the destination
byte-identical to a naive byte-by-byte copy, and `memset(to, data, bytes,
arch)` byte-identical to a naive byte-by-byte fill with the fill byte
(`batchBytes = batchByteSize(arch)`; every architecture has `8 ≤ batchBytes`,
which `memset` also relies on when it reads `data64` from the broadcast
vector). -/
theorem memcpy_memset_spec : ∀ batchBytes : Nat, 8 ≤ batchBytes →
    ∀ (dst0 src : Nat → Nat) (toOff fromOff d bytes j : Nat),
    memcpy batchBytes src dst0 toOff fromOff bytes j =
      naiveCopy dst0 src toOff fromOff bytes j ∧
    memset batchBytes dst0 toOff d bytes j = naiveFill dst0 toOff bytes d j := by
  intro batchBytes h8 dst0 src toOff fromOff d bytes j
  exact ⟨memcpy_eq_naive batchBytes (by omega) src dst0 toOff fromOff bytes j,
    memset_eq_naive batchBytes (by omega) dst0 toOff d bytes j⟩

/-- Closed witness for `memcpy_memset_spec`: a 16-byte-batch architecture,
a 37-byte copy/fill at unaligned offsets, evaluated at one copied byte and
one untouched byte. -/
theorem memcpy_memset_spec_witness :
    memcpy 16 (fun i => i + 100) (fun _ => 7) 5 11 37 20 = 126 ∧
    memset 16 (fun _ => 7) 5 9 37 3 = 7 := by
  have h1 := (memcpy_memset_spec 16 (by decide) (fun _ => 7) (fun i => i + 100)
    5 11 9 37 20).1
  have h2 := (memcpy_memset_spec 16 (by decide) (fun _ => 7) (fun i => i + 100)
    5 11 9 37 3).2
  constructor
  · rw [h1]
    decide
  · rw [h2]
    decide

theorem reflectBits_lt (n : Nat) : ∀ x, reflectBits n x < 2 ^ n := by
  induction n with
  | zero =>
    intro x
    simp [reflectBits]
  | succ n ih =>
    intro x
    show (x % 2) <<< n + reflectBits n (x / 2) < 2 ^ (n + 1)
    have h1 := ih (x / 2)
    have h2 : x % 2 ≤ 1 := by omega
    rw [Nat.shiftLeft_eq, Nat.pow_succ]
    have h3 : x % 2 * 2 ^ n ≤ 2 ^ n := by
      calc x % 2 * 2 ^ n ≤ 1 * 2 ^ n := Nat.mul_le_mul_right _ h2
      _ = 2 ^ n := Nat.one_mul _
    omega

theorem testBit_mul_pow_add : ∀ j n a R : Nat, R < 2 ^ n →
    (a * 2 ^ n + R).testBit j = if j < n then R.testBit j else a.testBit (j - n) := by
  intro j
  induction j with
  | zero =>
    intro n a R hR
    cases n with
    | zero =>
      have hR0 : R = 0 := by omega
      subst hR0
      simp
    | succ n =>
      rw [if_pos (by omega), Nat.testBit_zero, Nat.testBit_zero]
      have hb : a * 2 ^ (n + 1) + R = R + a * 2 ^ n * 2 := by
        rw [Nat.pow_succ]
        ring
      rw [hb, Nat.add_mul_mod_self_right]
  | succ j ihj =>
    intro n a R hR
    cases n with
    | zero =>
      have hR0 : R = 0 := by omega
      subst hR0
      simp
    | succ n =>
      rw [Nat.testBit_succ]
      have hdiv : (a * 2 ^ (n + 1) + R) / 2 = a * 2 ^ n + R / 2 := by
        rw [show a * 2 ^ (n + 1) + R = R + a * 2 ^ n * 2 from by rw [Nat.pow_succ]; ring]
        rw [Nat.add_mul_div_right _ _ (by omega : (0:Nat) < 2)]
        omega
      rw [hdiv, ihj n a (R / 2) (by rw [Nat.pow_succ] at hR; omega)]
      by_cases hj : j < n
      · rw [if_pos hj, if_pos (by omega), Nat.testBit_succ]
      · rw [if_neg hj, if_neg (by omega)]
        congr 1
        omega

theorem reflectBits_testBit : ∀ n x j, (reflectBits n x).testBit j =
    if j < n then x.testBit (n - 1 - j) else false := by
  intro n
  induction n with
  | zero =>
    intro x j
    simp [reflectBits]
  | succ n ih =>
    intro x j
    show ((x % 2) <<< n + reflectBits n (x / 2)).testBit j = _
    rw [Nat.shiftLeft_eq]
    rw [testBit_mul_pow_add j n (x % 2) (reflectBits n (x / 2)) (reflectBits_lt n (x / 2))]
    by_cases hj : j < n
    · rw [if_pos hj, if_pos (by omega), ih (x / 2) j, if_pos hj]
      have harith : n + 1 - 1 - j = n - 1 - j + 1 := by omega
      rw [harith, Nat.testBit_succ]
    · by_cases hj2 : j = n
      · subst hj2
        rw [if_neg hj, if_pos (by omega)]
        have h0 : j - j = 0 := by omega
        have h1 : j + 1 - 1 - j = 0 := by omega
        rw [h0, h1, Nat.testBit_zero, Nat.testBit_zero]
        have : x % 2 % 2 = x % 2 := by omega
        rw [this]
      · rw [if_neg hj, if_neg (by omega)]
        apply Nat.testBit_lt_two_pow
        calc x % 2 < 2 := by omega
        _ = 2 ^ 1 := by norm_num
        _ ≤ 2 ^ (j - n) := Nat.pow_le_pow_right (by omega) (by omega)

theorem reflect32_lt (x : Nat) : reflect32 x < 2 ^ 32 := reflectBits_lt 32 x

theorem reflect32_involution (x : Nat) (hx : x < 2 ^ 32) :
    reflect32 (reflect32 x) = x := by
  apply Nat.eq_of_testBit_eq
  intro j
  unfold reflect32
  rw [reflectBits_testBit]
  by_cases hj : j < 32
  · rw [if_pos hj, reflectBits_testBit, if_pos (by omega)]
    congr 1
    omega
  · rw [if_neg hj]
    exact (testBit_ge_false x 32 j hx (by omega)).symm

theorem crcStep_lt (r : Nat) (h : r < 2 ^ 32) : crcStep r < 2 ^ 32 := by
  have hsh : r >>> 1 < 2 ^ 32 := by
    rw [Nat.shiftRight_eq_div_pow]
    have := Nat.div_le_self r (2 ^ 1)
    omega
  unfold crcStep
  split
  · exact Nat.xor_lt_two_pow hsh (by norm_num)
  · exact hsh

theorem crcStep_iterate_lt (k r : Nat) (h : r < 2 ^ 32) : crcStep^[k] r < 2 ^ 32 := by
  induction k with
  | zero => simpa using h
  | succ k ih =>
    rw [Function.iterate_succ_apply']
    exact crcStep_lt _ ih

theorem crcTableEntry_lt (b : Nat) (h : b < 2 ^ 32) : crcTableEntry b < 2 ^ 32 :=
  crcStep_iterate_lt 8 b h

theorem crcUpdateByte_lt (r b : Nat) (h : r < 2 ^ 32) : crcUpdateByte r b < 2 ^ 32 := by
  unfold crcUpdateByte
  apply Nat.xor_lt_two_pow
  · rw [Nat.shiftRight_eq_div_pow]
    have := Nat.div_le_self r (2 ^ 8)
    omega
  · apply crcTableEntry_lt
    have : (r ^^^ b) &&& 255 ≤ 255 := by
      have := Nat.and_le_right (n := r ^^^ b) (m := 255)
      omega
    omega

theorem crcProcessBytes_lt (bs : List Nat) : ∀ r, r < 2 ^ 32 →
    crcProcessBytes r bs < 2 ^ 32 := by
  induction bs with
  | nil => intro r h; exact h
  | cons b bs ih =>
    intro r h
    exact ih _ (crcUpdateByte_lt r b h)

/-- Known-answer check: the modelled `boost::crc_32_type` produces the
standard CRC-32 check value over the ASCII digits of "123456789". -/
theorem boostCrc32_check_value :
    boostCrc32 0xFFFFFFFF [0x31, 0x32, 0x33, 0x34, 0x35, 0x36, 0x37, 0x38, 0x39] =
      0xCBF43926 := by decide

/-- C4 counterexample: chaining `crc32` by passing the returned checksum
directly as the next call's accumulator does not agree with the whole-buffer
CRC-32: at seed 0 with `a` and `b` each a single zero `uint64_t`,
`crc32(crc32(0, 0), 0) = 0x6522DF69` while the whole-buffer CRC-32 of the
sixteen zero bytes with seed 0 is `0xFFFFFFFF`. -/
theorem crc32_chain_counterexample :
    Crc32_apply (Crc32_apply 0 0) 0 ≠ boostCrc32 0 (bytes8LE 0 ++ bytes8LE 0) := by
  decide

/-- C4 (amended): chaining agrees with the whole-buffer CRC-32 algorithm
once the returned checksum is converted back to an interim remainder —
`crcResume c = reflect32 (c XOR 0xFFFFFFFF)` — before being passed as the
next call's accumulator; passing the checksum directly, as the claim states,
fails (`crc32_chain_counterexample`). -/
theorem crc32_chain_resumed : ∀ seed a b : Nat,
    Crc32_apply (crcResume (Crc32_apply seed a)) b =
      boostCrc32 seed (bytes8LE a ++ bytes8LE b) := by
  intro seed a b
  unfold Crc32_apply boostCrc32 crcResume
  have hX : crcProcessBytes (reflect32 seed) (bytes8LE a) < 2 ^ 32 :=
    crcProcessBytes_lt _ _ (reflect32_lt seed)
  rw [Nat.xor_cancel_right]
  rw [reflect32_involution _ hX]
  unfold crcProcessBytes
  rw [List.foldl_append]

theorem ctz_odd (w : Nat) (h : w % 2 = 1) : ctz w = 0 := by
  conv_lhs => rw [ctz]
  rw [if_pos (Or.inr h)]

theorem ctz_even (w : Nat) (h0 : w ≠ 0) (he : w % 2 = 0) : ctz w = ctz (w / 2) + 1 := by
  conv_lhs => rw [ctz]
  rw [if_neg (by omega)]

theorem ctz_spec : ∀ w, w ≠ 0 →
    (∀ i, i < ctz w → w.testBit i = false) ∧ w.testBit (ctz w) = true := by
  intro w
  induction w using Nat.strong_induction_on with
  | _ w ih =>
    intro h0
    by_cases hp : w % 2 = 1
    · rw [ctz_odd w hp]
      refine ⟨fun i hi => absurd hi (by omega), ?_⟩
      rw [Nat.testBit_zero]
      simp [hp]
    · have he : w % 2 = 0 := by omega
      have h2 : w / 2 ≠ 0 := by omega
      have hlt : w / 2 < w := by omega
      rcases ih (w / 2) hlt h2 with ⟨ihlow, ihbit⟩
      rw [ctz_even w h0 he]
      constructor
      · intro i hi
        cases i with
        | zero =>
          rw [Nat.testBit_zero]
          simp [he]
        | succ i =>
          rw [Nat.testBit_succ]
          exact ihlow i (by omega)
      · rw [Nat.testBit_succ]
        exact ihbit

theorem testBit_pred : ∀ w, w ≠ 0 → ∀ i, (w - 1).testBit i =
    (if i < ctz w then true else if i = ctz w then false else w.testBit i) := by
  intro w
  induction w using Nat.strong_induction_on with
  | _ w ih =>
    intro h0 i
    by_cases hp : w % 2 = 1
    · rw [ctz_odd w hp]
      cases i with
      | zero =>
        rw [if_neg (by omega), if_pos rfl, Nat.testBit_zero]
        simp
        omega
      | succ i =>
        rw [if_neg (by omega), if_neg (by omega)]
        rw [Nat.testBit_succ, Nat.testBit_succ]
        have hdiv : (w - 1) / 2 = w / 2 := by omega
        rw [hdiv]
    · have he : w % 2 = 0 := by omega
      have h2 : w / 2 ≠ 0 := by omega
      rw [ctz_even w h0 he]
      cases i with
      | zero =>
        rw [if_pos (by omega), Nat.testBit_zero]
        simp
        omega
      | succ i =>
        rw [Nat.testBit_succ]
        have hdiv : (w - 1) / 2 = w / 2 - 1 := by omega
        rw [hdiv, ih (w / 2) (by omega) h2 i]
        by_cases hi : i < ctz (w / 2)
        · rw [if_pos hi, if_pos (by omega)]
        · by_cases hieq : i = ctz (w / 2)
          · rw [if_neg hi, if_pos hieq, if_neg (by omega), if_pos (by omega)]
          · rw [if_neg hi, if_neg hieq, if_neg (by omega), if_neg (by omega)]
            rw [Nat.testBit_succ]

theorem clearLowest_testBit (w : Nat) (h0 : w ≠ 0) (i : Nat) :
    (w &&& (w - 1)).testBit i = (w.testBit i && !(decide (i = ctz w))) := by
  rw [Nat.testBit_land, testBit_pred w h0 i]
  rcases ctz_spec w h0 with ⟨hlow, hbit⟩
  by_cases hi : i < ctz w
  · rw [if_pos hi, hlow i hi]
    simp
  · by_cases hieq : i = ctz w
    · rw [if_neg hi, if_pos hieq]
      simp [hieq]
    · rw [if_neg hi, if_neg hieq]
      simp [hieq]

theorem clearLowest_le (w : Nat) : w &&& (w - 1) ≤ w := Nat.and_le_left

theorem filter_range_cons_min (p q : Nat → Bool) (n c : Nat) (hc : c < n)
    (hlow : ∀ i, i < c → p i = false) (hpc : p c = true)
    (hq : ∀ i, q i = (p i && !(decide (i = c)))) :
    (List.range n).filter p = c :: (List.range n).filter q := by
  have hsplit := range_split c n (by omega)
  have hcons : List.range' c (n - c) = c :: List.range' (c + 1) (n - c - 1) := by
    have h1 : n - c = (n - c - 1) + 1 := by omega
    rw [h1]
    rfl
  have h1 : (List.range c).filter p = [] := by
    rw [List.filter_eq_nil_iff]
    intro x hx
    simp [hlow x (List.mem_range.mp hx)]
  have h2 : (List.range c).filter q = [] := by
    rw [List.filter_eq_nil_iff]
    intro x hx
    rw [hq x, hlow x (List.mem_range.mp hx)]
    simp
  have h3 : (List.range' (c + 1) (n - c - 1)).filter p =
      (List.range' (c + 1) (n - c - 1)).filter q := by
    apply List.filter_congr
    intro x hx
    rcases List.mem_range'.mp hx with ⟨i, hi, rfl⟩
    rw [hq]
    have hne : ¬(c + 1 + 1 * i = c) := by omega
    rw [decide_eq_false hne]
    simp
  have hqc : q c = false := by
    rw [hq c, hpc]
    simp
  rw [hsplit, List.filter_append, List.filter_append, h1, h2, hcons,
    List.filter_cons, List.filter_cons, hpc, hqc]
  simp [h3]

theorem setBitsBelow_cons_clear (n w : Nat) (hw : w < 2 ^ n) (h0 : w ≠ 0) :
    ctz w < n ∧
    setBitsBelow n w = ctz w :: setBitsBelow n (w &&& (w - 1)) := by
  rcases ctz_spec w h0 with ⟨hlow, hbit⟩
  have hcn : ctz w < n := by
    by_contra hge
    rw [testBit_ge_false w n (ctz w) hw (by omega)] at hbit
    exact absurd hbit (by simp)
  refine ⟨hcn, ?_⟩
  unfold setBitsBelow
  exact filter_range_cons_min _ _ n (ctz w) hcn hlow hbit (clearLowest_testBit w h0)

theorem getD_take {α : Type} (l : List α) (n m : Nat) (d : α) (h : m < n) :
    (l.take n).getD m d = l.getD m d := by
  simp [List.getD_eq_getElem?_getD, List.getElem?_take, h]

theorem popCount_zero : popCount 0 = 0 := by
  simp [popCount]

theorem popCount_pos : ∀ w, w ≠ 0 → 0 < popCount w := by
  intro w
  induction w using Nat.strong_induction_on with
  | _ w ih =>
    intro h
    rw [popCount_step w h]
    by_cases hp : w % 2 = 1
    · omega
    · have h2 : w / 2 ≠ 0 := by omega
      have := ih (w / 2) (by omega) h2
      omega

theorem scanStore_inv (s : ScanState) (P vals : List Nat) (adv : Nat)
    (hinv : scanInv s P) (hadv : adv ≤ vals.length) :
    scanInv (scanStore s vals adv) (P ++ vals.take adv) := by
  obtain ⟨hpos, hbuf⟩ := hinv
  constructor
  · simp only [scanStore, List.length_append, List.length_take]
    omega
  · intro j hj
    simp only [List.length_append, List.length_take] at hj
    simp only [scanStore]
    by_cases hjP : j < P.length
    · rw [if_neg (by omega), hbuf j hjP, getD_append_left _ _ _ _ hjP]
    · rw [if_pos (by constructor <;> omega)]
      rw [getD_append_right _ _ _ _ (by omega)]
      rw [getD_take vals adv (j - P.length) 0 (by omega)]
      rw [hpos]

theorem scanStore_row (s : ScanState) (vals : List Nat) (adv : Nat) :
    (scanStore s vals adv).row = s.row := rfl

theorem sparseLoop_inv : ∀ w, w < 2 ^ 64 → ∀ s P, scanInv s P →
    scanInv (sparseLoop w s) (P ++ (setBitsBelow 64 w).map (· + s.row)) ∧
    (sparseLoop w s).row = s.row := by
  intro w
  induction w using Nat.strong_induction_on with
  | _ w ih =>
    intro hw s P hinv
    by_cases h0 : w = 0
    · subst h0
      have hz : sparseLoop 0 s = s := by
        conv_lhs => rw [sparseLoop]
        rw [if_pos rfl]
      have hsb : setBitsBelow 64 0 = [] := by
        unfold setBitsBelow
        rw [List.filter_eq_nil_iff]
        intro x _
        simp [Nat.zero_testBit]
      rw [hz, hsb]
      constructor
      · simpa using hinv
      · rfl
    · have hstep : sparseLoop w s = sparseLoop (w &&& (w - 1)) (scanStore s [ctz w + s.row] 1) := by
        conv_lhs => rw [sparseLoop]
        rw [if_neg h0]
      rcases setBitsBelow_cons_clear 64 w hw h0 with ⟨hcn, hdecomp⟩
      have hwlt : w &&& (w - 1) < w := by
        have := clearLowest_le w
        have h1 : w &&& (w - 1) ≤ w - 1 := Nat.and_le_right
        omega
      have hinv1 : scanInv (scanStore s [ctz w + s.row] 1) (P ++ [ctz w + s.row]) :=
        scanStore_inv s P [ctz w + s.row] 1 hinv (by simp)
      have hrow1 : (scanStore s [ctz w + s.row] 1).row = s.row := rfl
      rcases ih (w &&& (w - 1)) hwlt (by omega) (scanStore s [ctz w + s.row] 1)
        (P ++ [ctz w + s.row]) hinv1 with ⟨hinv2, hrow2⟩
      rw [hstep]
      constructor
      · rw [hdecomp]
        simp only [List.map_cons]
        rw [hrow1] at hinv2
        simpa [List.append_assoc] using hinv2
      · rw [hrow2, hrow1]

theorem setBitsBelow_add (n m w : Nat) :
    setBitsBelow (n + m) w = setBitsBelow n w ++ (setBitsBelow m (w >>> n)).map (· + n) := by
  unfold setBitsBelow
  rw [range_split n (n + m) (by omega)]
  have hnm : n + m - n = m := by omega
  rw [hnm, List.filter_append]
  congr 1
  rw [List.range'_eq_map_range, List.filter_map]
  have hfun : ((fun i => w.testBit i) ∘ (n + ·)) = fun i => (w >>> n).testBit i := by
    funext i
    simp [Function.comp, Nat.testBit_shiftRight]
  rw [hfun]
  have hadd : ((n + ·) : Nat → Nat) = (· + n) := by
    funext i
    omega
  rw [hadd]

theorem setBitsBelow_land_sub_one (k n w : Nat) (hkn : n ≤ k) :
    setBitsBelow n (w &&& (2 ^ k - 1)) = setBitsBelow n w := by
  unfold setBitsBelow
  apply List.filter_congr
  intro x hx
  have hxn := List.mem_range.mp hx
  rw [Nat.testBit_land, Nat.testBit_two_pow_sub_one]
  have : x < k := by omega
  simp [this]

theorem land_255_lt (w : Nat) : w &&& 255 < 256 := by
  have := Nat.and_le_right (n := w) (m := 255)
  omega

theorem land_15_lt (w : Nat) : w &&& 15 < 16 := by
  have := Nat.and_le_right (n := w) (m := 15)
  omega

theorem byteSetBits_take_pop (b : Nat) (hb : b < 256) :
    (byteSetBits b).take (popCount b) = setBitsBelow 8 b := by
  unfold byteSetBits
  rw [popCount_eq_length 8 b hb]
  exact List.take_left _ _

theorem setBitsBelow_split_nibbles (b : Nat) :
    setBitsBelow 8 b =
      setBitsBelow 4 (b &&& 15) ++ (setBitsBelow 4 (b >>> 4)).map (· + 4) := by
  have h := setBitsBelow_add 4 4 b
  rw [show (4 + 4 : Nat) = 8 from rfl] at h
  rw [h]
  congr 1
  exact (setBitsBelow_land_sub_one 4 4 b (by omega)).symm

theorem setBitsBelow_length_le (n w : Nat) : (setBitsBelow n w).length ≤ n := by
  unfold setBitsBelow
  calc ((List.range n).filter (w.testBit ·)).length
      ≤ (List.range n).length := List.length_filter_le _ _
    _ = n := List.length_range n

theorem setBitsBelow_zero (n : Nat) : setBitsBelow n 0 = [] := by
  unfold setBitsBelow
  rw [List.filter_eq_nil_iff]
  intro x _
  simp [Nat.zero_testBit]

theorem denseByte_inv (wide : Bool) (b : Nat) (hb : b < 256) (s : ScanState) (P : List Nat)
    (hinv : scanInv s P) :
    scanInv ((if wide then denseByteWide else denseByteNarrow) b s)
      (P ++ (setBitsBelow 8 b).map (· + s.row)) ∧
    ((if wide then denseByteWide else denseByteNarrow) b s).row = s.row := by
  by_cases h0 : b = 0
  · subst h0
    have hsb : setBitsBelow 8 0 = [] := by
      unfold setBitsBelow
      rw [List.filter_eq_nil_iff]
      intro x _
      simp [Nat.zero_testBit]
    have hid : (if wide then denseByteWide else denseByteNarrow) 0 s = s := by
      cases wide <;> simp [denseByteWide, denseByteNarrow]
    rw [hid, hsb]
    constructor
    · simpa using hinv
    · rfl
  · have hlen8 : (byteSetBits b).length = 8 := byteSetBits_length b
    have hpop : popCount b = (setBitsBelow 8 b).length := popCount_eq_length 8 b hb
    have hslen : (setBitsBelow 8 b).length ≤ 8 := by
      have h1 : (byteSetBits b).length = (setBitsBelow 8 b).length +
          (8 - (setBitsBelow 8 b).length) := by
        unfold byteSetBits
        simp
      omega
    cases wide with
    | true =>
      show scanInv (denseByteWide b s) _ ∧ (denseByteWide b s).row = s.row
      unfold denseByteWide
      rw [if_neg h0]
      have hstore := scanStore_inv s P ((byteSetBits b).map (· + s.row)) (popCount b) hinv
        (by rw [List.length_map, hlen8]; omega)
      have htake : ((byteSetBits b).map (· + s.row)).take (popCount b) =
          (setBitsBelow 8 b).map (· + s.row) := by
        rw [← List.map_take, byteSetBits_take_pop b hb]
      rw [htake] at hstore
      exact ⟨hstore, rfl⟩
    | false =>
      show scanInv (denseByteNarrow b s) _ ∧ (denseByteNarrow b s).row = s.row
      have hb16 : b &&& 15 < 16 := land_15_lt b
      have hhi16 : b >>> 4 < 16 := by
        rw [Nat.shiftRight_eq_div_pow]
        omega
      have hpopL : popCount (b &&& 15) = (setBitsBelow 4 (b &&& 15)).length :=
        popCount_eq_length 4 _ hb16
      have hpopH : popCount (b >>> 4) = (setBitsBelow 4 (b >>> 4)).length :=
        popCount_eq_length 4 _ hhi16
      have hL4 : (setBitsBelow 4 (b &&& 15)).length ≤ 4 := setBitsBelow_length_le 4 _
      have hH4 : (setBitsBelow 4 (b >>> 4)).length ≤ 4 := setBitsBelow_length_le 4 _
      have hsplit : setBitsBelow 8 b =
          setBitsBelow 4 (b &&& 15) ++ (setBitsBelow 4 (b >>> 4)).map (· + 4) :=
        setBitsBelow_split_nibbles b
      have hsplitlen : (setBitsBelow 8 b).length =
          (setBitsBelow 4 (b &&& 15)).length + (setBitsBelow 4 (b >>> 4)).length := by
        rw [hsplit]
        simp
      have hbytes : byteSetBits b = setBitsBelow 4 (b &&& 15) ++
          ((setBitsBelow 4 (b >>> 4)).map (· + 4) ++
            List.replicate (8 - (setBitsBelow 8 b).length) 0) := by
        unfold byteSetBits
        rw [hsplit, List.append_assoc]
      simp only [denseByteNarrow]
      rw [if_neg h0]
      have hT1 : ((((byteSetBits b).take 4).map (· + s.row)).take (popCount (b &&& 15))) =
          (setBitsBelow 4 (b &&& 15)).map (· + s.row) := by
        rw [← List.map_take, List.take_take]
        have hmin : min (popCount (b &&& 15)) 4 = popCount (b &&& 15) := by omega
        rw [hmin, hpopL, hbytes, List.take_left]
      have hLen1 : (((byteSetBits b).take 4).map (· + s.row)).length = 4 := by
        rw [List.length_map, List.length_take, hlen8]
        omega
      have hS1 : scanInv
          (if b &&& 15 ≠ 0 then
            scanStore s (((byteSetBits b).take 4).map (· + s.row)) (popCount (b &&& 15))
          else s)
          (P ++ (setBitsBelow 4 (b &&& 15)).map (· + s.row)) ∧
          (if b &&& 15 ≠ 0 then
            scanStore s (((byteSetBits b).take 4).map (· + s.row)) (popCount (b &&& 15))
          else s).row = s.row := by
        by_cases hlo : b &&& 15 = 0
        · rw [if_neg (by omega)]
          rw [hlo, setBitsBelow_zero]
          constructor
          · simpa using hinv
          · rfl
        · rw [if_pos hlo]
          have hstore := scanStore_inv s P (((byteSetBits b).take 4).map (· + s.row))
            (popCount (b &&& 15)) hinv (by omega)
          rw [hT1] at hstore
          exact ⟨hstore, rfl⟩
      have hpopeq : (if b &&& 15 ≠ 0 then popCount (b &&& 15) else 0) = popCount (b &&& 15) := by
        by_cases hlo : b &&& 15 = 0
        · rw [if_neg (by omega), hlo, popCount_zero]
        · rw [if_pos hlo]
      rw [hpopeq, hS1.2]
      by_cases hhi : b >>> 4 = 0
      · rw [if_neg (by omega)]
        have hmap0 : (setBitsBelow 4 (b >>> 4)).map (· + 4) = [] := by
          rw [hhi, setBitsBelow_zero]
          rfl
        rw [hsplit, hmap0, List.append_nil]
        exact hS1
      · rw [if_pos hhi]
        have hdrop : (byteSetBits b).drop (popCount (b &&& 15)) =
            (setBitsBelow 4 (b >>> 4)).map (· + 4) ++
              List.replicate (8 - (setBitsBelow 8 b).length) 0 := by
          rw [hbytes, hpopL, List.drop_left]
        have hT2 : ((((byteSetBits b).drop (popCount (b &&& 15))).take 4).map
              (· + s.row)).take (popCount (b >>> 4)) =
            ((setBitsBelow 4 (b >>> 4)).map (· + 4)).map (· + s.row) := by
          rw [← List.map_take, List.take_take]
          have hmin : min (popCount (b >>> 4)) 4 = popCount (b >>> 4) := by omega
          rw [hmin, hdrop, hpopH, ← List.length_map (setBitsBelow 4 (b >>> 4)) (· + 4),
            List.take_left]
        have hLen2 : (popCount (b >>> 4)) ≤
            ((((byteSetBits b).drop (popCount (b &&& 15))).take 4).map (· + s.row)).length := by
          rw [List.length_map, List.length_take, List.length_drop, hlen8]
          omega
        have hstore2 := scanStore_inv _ (P ++ (setBitsBelow 4 (b &&& 15)).map (· + s.row))
          ((((byteSetBits b).drop (popCount (b &&& 15))).take 4).map (· + s.row))
          (popCount (b >>> 4)) hS1.1 hLen2
        rw [hT2] at hstore2
        constructor
        · rw [hsplit, List.map_append, ← List.append_assoc]
          exact hstore2
        · rw [scanStore_row, hS1.2]

theorem denseLoop_inv (wide : Bool) :
    ∀ k w s P, w < 2 ^ (8 * k) → scanInv s P →
      scanInv (denseLoop wide k w s) (P ++ (setBitsBelow (8 * k) w).map (· + s.row)) ∧
      (denseLoop wide k w s).row = s.row + 8 * k := by
  intro k
  induction k with
  | zero =>
    intro w s P hw hinv
    constructor
    · have h0 : setBitsBelow (8 * 0) w = [] := by
        show setBitsBelow 0 w = []
        rfl
      rw [h0]
      simpa using hinv
    · show s.row = s.row + 8 * 0
      omega
  | succ k ih =>
    intro w s P hw hinv
    show scanInv (denseLoop wide k (w >>> 8)
        (addRow ((if wide then denseByteWide else denseByteNarrow) (w &&& 255) s) 8)) _ ∧
      (denseLoop wide k (w >>> 8)
        (addRow ((if wide then denseByteWide else denseByteNarrow) (w &&& 255) s) 8)).row =
        s.row + 8 * (k + 1)
    have hb255 : w &&& 255 < 256 := land_255_lt w
    rcases denseByte_inv wide (w &&& 255) hb255 s P hinv with ⟨hinvB, hrowB⟩
    have h255 : setBitsBelow 8 (w &&& 255) = setBitsBelow 8 w := by
      rw [show (255 : Nat) = 2 ^ 8 - 1 from by norm_num]
      exact setBitsBelow_land_sub_one 8 8 w (by omega)
    rw [h255] at hinvB
    have hinvA : scanInv (addRow ((if wide then denseByteWide else denseByteNarrow)
        (w &&& 255) s) 8) (P ++ (setBitsBelow 8 w).map (· + s.row)) := hinvB
    have hrowA : (addRow ((if wide then denseByteWide else denseByteNarrow)
        (w &&& 255) s) 8).row = s.row + 8 := by
      show ((if wide then denseByteWide else denseByteNarrow) (w &&& 255) s).row + 8 =
        s.row + 8
      rw [hrowB]
    have hw8 : w >>> 8 < 2 ^ (8 * k) := by
      rw [Nat.shiftRight_eq_div_pow]
      have hpow : 2 ^ (8 * (k + 1)) = 2 ^ 8 * 2 ^ (8 * k) := by
        rw [← Nat.pow_add]
        congr 1
        omega
      rw [hpow] at hw
      omega
    rcases ih (w >>> 8) _ _ hw8 hinvA with ⟨hinvL, hrowL⟩
    constructor
    · rw [hrowA] at hinvL
      have hdeco : setBitsBelow (8 * (k + 1)) w =
          setBitsBelow 8 w ++ (setBitsBelow (8 * k) (w >>> 8)).map (· + 8) := by
        have h := setBitsBelow_add 8 (8 * k) w
        rw [show 8 + 8 * k = 8 * (k + 1) from by omega] at h
        exact h
      rw [hdeco, List.map_append, List.map_map, ← List.append_assoc]
      have hcomp : ((· + s.row) ∘ (· + 8) : Nat → Nat) = (· + (s.row + 8)) := by
        funext x
        simp [Function.comp]
        omega
      rw [hcomp]
      exact hinvL
    · rw [hrowL, hrowA]
      omega

theorem scanStep_inv (wide : Bool) (bs : List Nat) (b e fw ew : Nat)
    (hwords : ∀ w ∈ bs, w < 2 ^ 64) (wi : Nat) (hfw : fw ≤ wi) (hew : wi < ew)
    (s : ScanState) (P : List Nat) (hrow : s.row = 64 * wi) (hinv : scanInv s P) :
    scanInv (scanStep wide bs b e fw ew s wi) (P ++ wordContrib bs b e fw ew wi) ∧
    ((scanStep wide bs b e fw ew s wi).row = s.row + 64 ∨ wi = ew - 1) := by
  have hword : bs.getD wi 0 < 2 ^ 64 := by
    by_cases hlt : wi < bs.length
    · exact hwords _ (getD_mem_of_lt bs wi 0 hlt)
    · rw [getD_ge_length bs wi 0 (by omega)]
      norm_num
  simp only [scanStep]
  by_cases h0 : bs.getD wi 0 = 0
  · rw [if_pos h0]
    have hmw : maskedWord bs b e fw ew wi = 0 := by
      simp only [maskedWord]
      rw [h0]
      split <;> split <;> simp [Nat.zero_and]
    unfold wordContrib
    rw [hmw, setBitsBelow_zero]
    constructor
    · simpa using hinv
    · left
      rfl
  · rw [if_neg h0]
    by_cases h1 : (if wi = fw ∧ b ≠ fw * 64 then
        bs.getD wi 0 &&& highMask (64 - (b - fw * 64)) else bs.getD wi 0) = 0
    · rw [if_pos h1]
      have hmw : maskedWord bs b e fw ew wi = 0 := by
        simp only [maskedWord]
        rw [h1]
        split <;> simp [Nat.zero_and]
      unfold wordContrib
      rw [hmw, setBitsBelow_zero]
      constructor
      · simpa using hinv
      · left
        rfl
    · rw [if_neg h1]
      have hmw : maskedWord bs b e fw ew wi =
          (if wi = ew - 1 ∧ e - (ew - 1) * 64 < 64 then
            (if wi = fw ∧ b ≠ fw * 64 then bs.getD wi 0 &&& highMask (64 - (b - fw * 64))
              else bs.getD wi 0) &&& lowMask (e - (ew - 1) * 64)
          else (if wi = fw ∧ b ≠ fw * 64 then bs.getD wi 0 &&& highMask (64 - (b - fw * 64))
              else bs.getD wi 0)) := by
        simp only [maskedWord]
      by_cases h2 : (if wi = ew - 1 ∧ e - (ew - 1) * 64 < 64 then
          (if wi = fw ∧ b ≠ fw * 64 then bs.getD wi 0 &&& highMask (64 - (b - fw * 64))
            else bs.getD wi 0) &&& lowMask (e - (ew - 1) * 64)
        else (if wi = fw ∧ b ≠ fw * 64 then bs.getD wi 0 &&& highMask (64 - (b - fw * 64))
            else bs.getD wi 0)) = 0
      · rw [if_pos h2]
        have hmw0 : maskedWord bs b e fw ew wi = 0 := by
          rw [hmw]
          exact h2
        unfold wordContrib
        rw [hmw0, setBitsBelow_zero]
        constructor
        · simpa using hinv
        · right
          by_cases hc2 : wi = ew - 1 ∧ e - (ew - 1) * 64 < 64
          · exact hc2.1
          · rw [if_neg hc2] at h2
            exact absurd h2 h1
      · rw [if_neg h2]
        rw [← hmw]
        have hmwlt : maskedWord bs b e fw ew wi < 2 ^ 64 := by
          have hle1 : (if wi = fw ∧ b ≠ fw * 64 then
              bs.getD wi 0 &&& highMask (64 - (b - fw * 64)) else bs.getD wi 0) ≤
              bs.getD wi 0 := by
            split
            · exact Nat.and_le_left
            · exact Nat.le_refl _
          have hle2 : maskedWord bs b e fw ew wi ≤
              (if wi = fw ∧ b ≠ fw * 64 then
                bs.getD wi 0 &&& highMask (64 - (b - fw * 64)) else bs.getD wi 0) := by
            rw [hmw]
            split
            · exact Nat.and_le_left
            · exact Nat.le_refl _
          omega
        by_cases hh : s.pos < s.row >>> 2
        · rw [if_pos hh]
          rcases sparseLoop_inv (maskedWord bs b e fw ew wi) hmwlt s P hinv with
            ⟨hinvS, hrowS⟩
          rw [hrow] at hinvS
          constructor
          · exact hinvS
          · left
            show (sparseLoop (maskedWord bs b e fw ew wi) s).row + 64 = s.row + 64
            rw [hrowS]
        · rw [if_neg hh]
          rcases denseLoop_inv wide 8 (maskedWord bs b e fw ew wi) s P
            (by rw [show (8 * 8 : Nat) = 64 from rfl]; exact hmwlt) hinv with ⟨hinvD, hrowD⟩
          rw [show (8 * 8 : Nat) = 64 from rfl] at hinvD hrowD
          rw [hrow] at hinvD
          exact ⟨hinvD, Or.inl hrowD⟩

theorem scanFold_inv (wide : Bool) (bs : List Nat) (b e fw ew : Nat)
    (hwords : ∀ w ∈ bs, w < 2 ^ 64) :
    ∀ n wi s P, fw ≤ wi → wi + n ≤ ew → s.row = 64 * wi → scanInv s P →
      scanInv ((List.range' wi n).foldl (scanStep wide bs b e fw ew) s)
        (P ++ ((List.range' wi n).map (wordContrib bs b e fw ew)).flatten) := by
  intro n
  induction n with
  | zero =>
    intro wi s P _ _ _ hinv
    simpa using hinv
  | succ n ih =>
    intro wi s P hfw hn hrow hinv
    have hcons : List.range' wi (n + 1) = wi :: List.range' (wi + 1) n := rfl
    rw [hcons, List.foldl_cons, List.map_cons, List.flatten_cons]
    rcases scanStep_inv wide bs b e fw ew hwords wi hfw (by omega) s P hrow hinv with
      ⟨hinv1, hrow1⟩
    rcases hrow1 with hrow1 | hlast
    · have hres := ih (wi + 1) _ _ (by omega) (by omega)
        (by rw [hrow1, hrow]; ring) hinv1
      rw [← List.append_assoc]
      exact hres
    · have hn0 : n = 0 := by omega
      subst hn0
      rw [← List.append_assoc]
      simpa using hinv1

theorem range'_append_gen (s m k : Nat) :
    List.range' s m ++ List.range' (s + m) k = List.range' s (m + k) := by
  have h := List.range'_append s m k 1
  simp only [Nat.one_mul] at h
  rw [Nat.add_comm k m] at h
  exact h

theorem lowMask_testBit (n i : Nat) : (lowMask n).testBit i = decide (i < n) := by
  unfold lowMask
  exact Nat.testBit_two_pow_sub_one n i

theorem highMask_testBit (n i : Nat) (hn : n ≤ 64) (hi : i < 64) :
    (highMask n).testBit i = decide (64 - n ≤ i) := by
  unfold highMask
  rw [Nat.testBit_shiftLeft, lowMask_testBit]
  by_cases h : 64 - n ≤ i
  · have h2 : i - (64 - n) < n := by omega
    simp [h, h2]
  · simp [h]

theorem maskedWord_testBit (bs : List Nat) (b e wi t : Nat) (hbe : b < e)
    (hfw : b / 64 ≤ wi) (hew : wi < roundUp64 e / 64) (ht : t < 64) :
    (maskedWord bs b e (b / 64) (roundUp64 e / 64) wi).testBit t =
      (bitmapBit bs (64 * wi + t) &&
        (decide (b ≤ 64 * wi + t) && decide (64 * wi + t < e))) := by
  have hewdef : roundUp64 e / 64 = (e + 63) / 64 := by
    unfold roundUp64
    omega
  have hb_lo : 64 * (b / 64) ≤ b := by omega
  have hb_hi : b < 64 * (b / 64 + 1) := by omega
  have he_hi : e ≤ 64 * (roundUp64 e / 64) := by rw [hewdef]; omega
  have he_lo : 64 * (roundUp64 e / 64 - 1) < e := by rw [hewdef]; omega
  rw [hewdef] at hew
  have hdiv : (64 * wi + t) / 64 = wi := by omega
  have hmod : (64 * wi + t) % 64 = t := by omega
  unfold bitmapBit
  rw [hdiv, hmod]
  simp only [maskedWord]
  by_cases hc2 : wi = roundUp64 e / 64 - 1 ∧ e - (roundUp64 e / 64 - 1) * 64 < 64
  · rw [if_pos hc2]
    rw [Nat.testBit_land, lowMask_testBit]
    have e2 : decide (t < e - (roundUp64 e / 64 - 1) * 64) = decide (64 * wi + t < e) := by
      simp only [decide_eq_decide]
      rw [hewdef]
      rw [hewdef] at hc2
      constructor <;> (intro; omega)
    rw [e2]
    by_cases hc1 : wi = b / 64 ∧ b ≠ b / 64 * 64
    · rw [if_pos hc1, Nat.testBit_land, highMask_testBit _ _ (by omega) ht]
      have e1 : decide (64 - (64 - (b - b / 64 * 64)) ≤ t) = decide (b ≤ 64 * wi + t) := by
        simp only [decide_eq_decide]
        constructor <;> (intro; omega)
      rw [e1, Bool.and_assoc]
    · rw [if_neg hc1]
      have e1 : decide (b ≤ 64 * wi + t) = true := by
        simp only [decide_eq_true_eq]
        rcases Decidable.not_and_iff_or_not.mp hc1 with h | h
        · omega
        · have hb64 : b = b / 64 * 64 := Decidable.not_not.mp h
          omega
      rw [e1, Bool.true_and]
  · rw [if_neg hc2]
    have e2 : decide (64 * wi + t < e) = true := by
      simp only [decide_eq_true_eq]
      rcases Decidable.not_and_iff_or_not.mp hc2 with h | h
      · rw [hewdef] at h
        omega
      · rw [hewdef] at h
        omega
    rw [e2]
    by_cases hc1 : wi = b / 64 ∧ b ≠ b / 64 * 64
    · rw [if_pos hc1, Nat.testBit_land, highMask_testBit _ _ (by omega) ht]
      have e1 : decide (64 - (64 - (b - b / 64 * 64)) ≤ t) = decide (b ≤ 64 * wi + t) := by
        simp only [decide_eq_decide]
        constructor <;> (intro; omega)
      rw [e1]
      simp
    · rw [if_neg hc1]
      have e1 : decide (b ≤ 64 * wi + t) = true := by
        simp only [decide_eq_true_eq]
        rcases Decidable.not_and_iff_or_not.mp hc1 with h | h
        · omega
        · have hb64 : b = b / 64 * 64 := Decidable.not_not.mp h
          omega
      rw [e1]
      simp

theorem wordContrib_eq_segment (bs : List Nat) (b e wi : Nat) (hbe : b < e)
    (hfw : b / 64 ≤ wi) (hew : wi < roundUp64 e / 64) :
    wordContrib bs b e (b / 64) (roundUp64 e / 64) wi =
      (List.range' (64 * wi) 64).filter
        (fun k => bitmapBit bs k && (decide (b ≤ k) && decide (k < e))) := by
  unfold wordContrib setBitsBelow
  rw [List.range'_eq_map_range, List.filter_map]
  have hcong : (List.range 64).filter
      ((fun k => bitmapBit bs k && (decide (b ≤ k) && decide (k < e))) ∘ (64 * wi + ·)) =
      (List.range 64).filter
        ((maskedWord bs b e (b / 64) (roundUp64 e / 64) wi).testBit ·) := by
    apply List.filter_congr
    intro t ht
    have ht64 := List.mem_range.mp ht
    simp only [Function.comp]
    exact (maskedWord_testBit bs b e wi t hbe hfw hew ht64).symm
  rw [hcong]
  have hfun : ((64 * wi + ·) : Nat → Nat) = (· + 64 * wi) := by
    funext x
    omega
  rw [hfun]

theorem flatten_segments (P : Nat → Bool) :
    ∀ n s0, ((List.range' s0 n).map (fun wi => (List.range' (64 * wi) 64).filter P)).flatten =
      (List.range' (64 * s0) (64 * n)).filter P := by
  intro n
  induction n with
  | zero =>
    intro s0
    rfl
  | succ n ih =>
    intro s0
    have hcons : List.range' s0 (n + 1) = s0 :: List.range' (s0 + 1) n := rfl
    rw [hcons, List.map_cons, List.flatten_cons, ih (s0 + 1)]
    have hsplit : List.range' (64 * s0) (64 * (n + 1)) =
        List.range' (64 * s0) 64 ++ List.range' (64 * (s0 + 1)) (64 * n) := by
      have h := range'_append_gen (64 * s0) 64 (64 * n)
      rw [show 64 * s0 + 64 = 64 * (s0 + 1) from by ring] at h
      rw [show (64 : Nat) + 64 * n = 64 * (n + 1) from by ring] at h
      exact h.symm
    rw [hsplit, List.filter_append]

theorem filter_range_window (P0 : Nat → Bool) (b e lo n : Nat)
    (hlob : lo ≤ b) (hbe : b ≤ e) (hen : e ≤ lo + n) :
    (List.range' lo n).filter (fun k => P0 k && (decide (b ≤ k) && decide (k < e))) =
      (List.range' b (e - b)).filter P0 := by
  have hsplit : List.range' lo n =
      List.range' lo (b - lo) ++ (List.range' b (e - b) ++ List.range' e (lo + n - e)) := by
    have h2 := range'_append_gen b (e - b) (lo + n - e)
    rw [show b + (e - b) = e from by omega] at h2
    have h1 := range'_append_gen lo (b - lo) (e - b + (lo + n - e))
    rw [show lo + (b - lo) = b from by omega] at h1
    rw [h2, h1]
    congr 1
    omega
  rw [hsplit, List.filter_append, List.filter_append]
  have hnil1 : (List.range' lo (b - lo)).filter
      (fun k => P0 k && (decide (b ≤ k) && decide (k < e))) = [] := by
    rw [List.filter_eq_nil_iff]
    intro x hx
    rcases List.mem_range'.mp hx with ⟨i, hi, rfl⟩
    have hxb : decide (b ≤ lo + 1 * i) = false := by
      simp only [decide_eq_false_iff_not]
      omega
    rw [hxb]
    simp
  have hnil2 : (List.range' e (lo + n - e)).filter
      (fun k => P0 k && (decide (b ≤ k) && decide (k < e))) = [] := by
    rw [List.filter_eq_nil_iff]
    intro x hx
    rcases List.mem_range'.mp hx with ⟨i, hi, rfl⟩
    have hxe : decide (e + 1 * i < e) = false := by
      simp only [decide_eq_false_iff_not]
      omega
    rw [hxe]
    simp
  have hmid : (List.range' b (e - b)).filter
      (fun k => P0 k && (decide (b ≤ k) && decide (k < e))) =
      (List.range' b (e - b)).filter P0 := by
    apply List.filter_congr
    intro x hx
    rcases List.mem_range'.mp hx with ⟨i, hi, rfl⟩
    have hxb : decide (b ≤ b + 1 * i) = true := by
      simp only [decide_eq_true_eq]
      omega
    have hxe : decide (b + 1 * i < e) = true := by
      simp only [decide_eq_true_eq]
      omega
    rw [hxb, hxe]
    simp
  rw [hnil1, hnil2, hmid, List.append_nil, List.nil_append]

theorem setBitIndices_decomp (bs : List Nat) (b e : Nat) (hbe : b < e) :
    setBitIndices bs b e =
      ((List.range' (b / 64) (roundUp64 e / 64 - b / 64)).map
        (wordContrib bs b e (b / 64) (roundUp64 e / 64))).flatten := by
  have hewdef : roundUp64 e / 64 = (e + 63) / 64 := by
    unfold roundUp64
    omega
  have hfwew : b / 64 < roundUp64 e / 64 := by rw [hewdef]; omega
  have hmapc : (List.range' (b / 64) (roundUp64 e / 64 - b / 64)).map
      (wordContrib bs b e (b / 64) (roundUp64 e / 64)) =
      (List.range' (b / 64) (roundUp64 e / 64 - b / 64)).map
        (fun wi => (List.range' (64 * wi) 64).filter
          (fun k => bitmapBit bs k && (decide (b ≤ k) && decide (k < e)))) := by
    apply List.map_congr_left
    intro wi hwi
    rcases List.mem_range'.mp hwi with ⟨i, hi, rfl⟩
    exact wordContrib_eq_segment bs b e _ hbe (by omega) (by omega)
  rw [hmapc, flatten_segments]
  rw [filter_range_window (bitmapBit bs) b e (64 * (b / 64))
    (64 * (roundUp64 e / 64 - b / 64)) (by omega) (by omega)
    (by rw [hewdef]; omega)]
  rfl

/-- C2: `indicesOfSetBits(bitmap, begin, end, result)` writes into `result`
exactly the absolute positions of the set bits in `[begin, end)`, in
strictly increasing order, and returns their count; for `end ≤ begin` it
returns 0 and writes nothing.  Proved for both the 8-lane and 4-lane
`int32_t` architectures, every bitmap, and every strategy mix the density
heuristic may select. -/
theorem indicesOfSetBits_spec :
    ∀ (wide : Bool) (bs : List Nat) (b e : Nat) (buf0 : Nat → Nat),
    (∀ w ∈ bs, w < 2 ^ 64) →
    (indicesOfSetBits wide bs b e buf0).pos = (setBitIndices bs b e).length ∧
    (∀ j, j < (setBitIndices bs b e).length →
      (indicesOfSetBits wide bs b e buf0).buf j = (setBitIndices bs b e).getD j 0) ∧
    (setBitIndices bs b e).Pairwise (· < ·) ∧
    (e ≤ b → (indicesOfSetBits wide bs b e buf0).pos = 0 ∧
      (indicesOfSetBits wide bs b e buf0).buf = buf0) := by
  intro wide bs b e buf0 hwords
  have hpair : (setBitIndices bs b e).Pairwise (· < ·) :=
    List.Pairwise.filter _ (List.pairwise_lt_range' b (e - b))
  by_cases hbe : e ≤ b
  · have hz : indicesOfSetBits wide bs b e buf0 = ⟨buf0, 0, 0, 0⟩ := by
      unfold indicesOfSetBits
      rw [if_pos hbe]
    have hlen : setBitIndices bs b e = [] := by
      unfold setBitIndices
      rw [show e - b = 0 from by omega]
      rfl
    rw [hz]
    refine ⟨by rw [hlen]; rfl, ?_, hpair, fun _ => ⟨rfl, rfl⟩⟩
    intro j hj
    rw [hlen] at hj
    simp at hj
  · have hre : e ≤ roundUp64 e := by unfold roundUp64; omega
    have hrun : indicesOfSetBits wide bs b e buf0 =
        (List.range' (b / 64) (roundUp64 e / 64 - b / 64)).foldl
          (scanStep wide bs b e (b / 64) (roundUp64 e / 64)) ⟨buf0, 0, 0, b / 64 * 64⟩ := by
      unfold indicesOfSetBits
      rw [if_neg hbe]
    have hinv0 : scanInv ⟨buf0, 0, 0, b / 64 * 64⟩ [] := by
      constructor
      · rfl
      · intro j hj
        simp at hj
    have hfold := scanFold_inv wide bs b e (b / 64) (roundUp64 e / 64) hwords
      (roundUp64 e / 64 - b / 64) (b / 64) ⟨buf0, 0, 0, b / 64 * 64⟩ [] (Nat.le_refl _)
      (by omega) (by show b / 64 * 64 = 64 * (b / 64); ring) hinv0
    rw [← hrun] at hfold
    have hdecomp := setBitIndices_decomp bs b e (by omega)
    rw [← hdecomp, List.nil_append] at hfold
    obtain ⟨hpos, hbuf⟩ := hfold
    refine ⟨hpos, hbuf, hpair, ?_⟩
    intro hc
    exact absurd hc (by omega)

/-- Closed witness for `indicesOfSetBits_spec`: the spec example, bitmap word
`0b1011`, range `[0, 4)`, yielding `[0, 1, 3]` and count 3 (on the 8-lane
architecture; hypotheses discharged by `decide`). -/
theorem indicesOfSetBits_spec_witness :
    (indicesOfSetBits true [11] 0 4 (fun _ => 99)).pos = 3 ∧
    (indicesOfSetBits true [11] 0 4 (fun _ => 99)).buf 0 = 0 ∧
    (indicesOfSetBits true [11] 0 4 (fun _ => 99)).buf 1 = 1 ∧
    (indicesOfSetBits true [11] 0 4 (fun _ => 99)).buf 2 = 3 := by
  have h := indicesOfSetBits_spec true [11] 0 4 (fun _ => 99) (by decide)
  have hlen : (setBitIndices [11] 0 4).length = 3 := by decide
  refine ⟨h.1.trans hlen, ?_, ?_, ?_⟩
  · exact (h.2.1 0 (by omega)).trans (by decide)
  · exact (h.2.1 1 (by omega)).trans (by decide)
  · exact (h.2.1 2 (by omega)).trans (by decide)

theorem scanStore_hiInv (slack : Nat) (s : ScanState) (vals : List Nat) (adv : Nat)
    (hlen : vals.length ≤ adv + slack) (h : hiInv slack s) :
    hiInv slack (scanStore s vals adv) := by
  simp only [hiInv, scanStore] at h ⊢
  omega

theorem sparseLoop_hiInv (slack : Nat) :
    ∀ w s, hiInv slack s → hiInv slack (sparseLoop w s) := by
  intro w
  induction w using Nat.strong_induction_on with
  | _ w ih =>
    intro s h
    by_cases hw : w = 0
    · rw [sparseLoop, if_pos hw]
      exact h
    · rw [sparseLoop, if_neg hw]
      have hlt : w &&& (w - 1) < w := by
        have h1 : w &&& (w - 1) ≤ w - 1 := Nat.and_le_right
        omega
      refine ih _ hlt _ (scanStore_hiInv slack s _ 1 ?_ h)
      simp only [List.length_cons, List.length_nil]
      omega

theorem denseByteWide_hiInv (b : Nat) (s : ScanState) (h : hiInv 7 s) :
    hiInv 7 (denseByteWide b s) := by
  unfold denseByteWide
  by_cases hb : b = 0
  · rw [if_pos hb]
    exact h
  · rw [if_neg hb]
    refine scanStore_hiInv 7 s _ _ ?_ h
    rw [List.length_map, byteSetBits_length]
    have := popCount_pos b hb
    omega

theorem denseByteNarrow_hiInv (b : Nat) (s : ScanState) (h : hiInv 3 s) :
    hiInv 3 (denseByteNarrow b s) := by
  by_cases hb : b = 0
  · unfold denseByteNarrow
    rw [if_pos hb]
    exact h
  · simp only [denseByteNarrow]
    rw [if_neg hb]
    have hS1 : hiInv 3 (if b &&& 15 ≠ 0 then
        scanStore s (((byteSetBits b).take 4).map (· + s.row)) (popCount (b &&& 15))
      else s) := by
      by_cases hlo : b &&& 15 = 0
      · rw [if_neg (by omega)]
        exact h
      · rw [if_pos hlo]
        refine scanStore_hiInv 3 s _ _ ?_ h
        rw [List.length_map, List.length_take, byteSetBits_length]
        have := popCount_pos _ hlo
        omega
    by_cases hhi : b >>> 4 = 0
    · rw [if_neg (by omega)]
      exact hS1
    · rw [if_pos hhi]
      refine scanStore_hiInv 3 _ _ _ ?_ hS1
      rw [List.length_map, List.length_take]
      have := popCount_pos _ hhi
      omega

theorem denseLoop_hiInv (wide : Bool) :
    ∀ n w s, hiInv (if wide then 7 else 3) s →
      hiInv (if wide then 7 else 3) (denseLoop wide n w s) := by
  intro n
  induction n with
  | zero => intro w s h; exact h
  | succ n ih =>
    intro w s h
    rw [denseLoop]
    refine ih _ _ ?_
    have hb : hiInv (if wide then 7 else 3)
        ((if wide then denseByteWide else denseByteNarrow) (w &&& 255) s) := by
      cases wide with
      | true => exact denseByteWide_hiInv _ s h
      | false => exact denseByteNarrow_hiInv _ s h
    simpa [hiInv, addRow] using hb

theorem addRow_hiInv (k : Nat) (t : ScanState) (n : Nat) :
    hiInv k (addRow t n) ↔ hiInv k t := Iff.rfl

theorem scanStep_hiInv (wide : Bool) (bs : List Nat) (b e fw ew : Nat)
    (s : ScanState) (wi : Nat) (h : hiInv (if wide then 7 else 3) s) :
    hiInv (if wide then 7 else 3) (scanStep wide bs b e fw ew s wi) := by
  have hdl := denseLoop_hiInv wide
  have hsp := sparseLoop_hiInv (if wide then 7 else 3)
  simp only [scanStep]
  revert h hdl hsp
  generalize (if wide then 7 else 3) = k
  intro h hdl hsp
  repeat' split
  all_goals first
    | exact h
    | (exact (addRow_hiInv _ _ _).mpr h)
    | (exact (addRow_hiInv _ _ _).mpr (hsp _ _ h))
    | (exact hdl 8 _ _ h)

theorem scanFold_hiInv (wide : Bool) (bs : List Nat) (b e fw ew : Nat) :
    ∀ (l : List Nat) (s : ScanState), hiInv (if wide then 7 else 3) s →
      hiInv (if wide then 7 else 3) (l.foldl (scanStep wide bs b e fw ew) s) := by
  intro l
  induction l with
  | nil => intro s h; exact h
  | cons x l ih =>
    intro s h
    exact ih _ (scanStep_hiInv wide bs b e fw ew s x h)

theorem denseLoop_zero_pos (wide : Bool) :
    ∀ n s, (denseLoop wide n 0 s).pos = s.pos ∧ (denseLoop wide n 0 s).hi = s.hi := by
  intro n
  induction n with
  | zero => intro s; exact ⟨rfl, rfl⟩
  | succ n ih =>
    intro s
    rw [denseLoop]
    have hid : (if wide then denseByteWide else denseByteNarrow) ((0 : Nat) &&& 255) s = s := by
      cases wide <;> simp [denseByteWide, denseByteNarrow]
    rw [show (0 : Nat) >>> 8 = 0 from rfl, hid]
    simpa [addRow] using ih (addRow s 8)

/-- C9: the output buffer of `indicesOfSetBits` may be written up to
`batch - 1` slots past the returned count, and no further: on an 8-lane
`int32_t` architecture the high-water mark of the stores never exceeds the
returned count plus 7, on a 4-lane one count plus 3 (the dense strategy
stores a full batch per nonzero byte but advances only by its popcount,
which is at least 1).  The overshoot is real: for bitmap word `0b11` over
`[0, 64)` the scan returns 2 but stores touch 8 slots. -/
theorem indicesOfSetBits_slack :
    (∀ (wide : Bool) (bs : List Nat) (b e : Nat) (buf0 : Nat → Nat),
      (indicesOfSetBits wide bs b e buf0).hi ≤
        (indicesOfSetBits wide bs b e buf0).pos + (if wide then 7 else 3)) ∧
    (indicesOfSetBits true [3] 0 64 (fun _ => 0)).pos = 2 ∧
    (indicesOfSetBits true [3] 0 64 (fun _ => 0)).hi = 8 := by
  have hgen : ∀ (wide : Bool) (bs : List Nat) (b e : Nat) (buf0 : Nat → Nat),
      hiInv (if wide then 7 else 3) (indicesOfSetBits wide bs b e buf0) := by
    intro wide bs b e buf0
    unfold indicesOfSetBits
    by_cases hbe : e ≤ b
    · rw [if_pos hbe]
      simp [hiInv]
    · rw [if_neg hbe]
      refine scanFold_hiInv wide bs b e _ _ _ _ ?_
      simp [hiInv]
  have hex : indicesOfSetBits true [3] 0 64 (fun _ => 0) =
      denseLoop true 8 3 ⟨(fun _ => 0), 0, 0, 0⟩ := by
    unfold indicesOfSetBits
    rw [if_neg (by omega)]
    rw [show roundUp64 64 / 64 = 1 from by unfold roundUp64; omega,
      Nat.zero_div, Nat.sub_zero, Nat.zero_mul]
    rw [show List.range' 0 1 = [0] from rfl, List.foldl_cons, List.foldl_nil]
    simp [scanStep]
  have hdbw : denseByteWide 3 ⟨(fun _ => 0), 0, 0, 0⟩ =
      scanStore ⟨(fun _ => 0), 0, 0, 0⟩ ((byteSetBits 3).map (· + 0)) (popCount 3) := by
    unfold denseByteWide
    rw [if_neg (by decide)]
  have hstep : denseLoop true 8 3 ⟨(fun _ => 0), 0, 0, 0⟩ =
      denseLoop true 7 0 (addRow (denseByteWide 3 ⟨(fun _ => 0), 0, 0, 0⟩) 8) := rfl
  have hpc : popCount 3 = 2 := by simp [popCount]
  have hpos : (indicesOfSetBits true [3] 0 64 (fun _ => 0)).pos = 2 := by
    rw [hex, hstep, (denseLoop_zero_pos true 7 _).1]
    simp [addRow, hdbw, scanStore, hpc]
  have hhi : (indicesOfSetBits true [3] 0 64 (fun _ => 0)).hi = 8 := by
    rw [hex, hstep, (denseLoop_zero_pos true 7 _).2]
    simp [addRow, hdbw, scanStore, byteSetBits_length]
  exact ⟨fun wide bs b e buf0 => hgen wide bs b e buf0, hpos, hhi⟩

end Velox
